import Mathlib

set_option linter.unusedVariables false

namespace Gantry

/-- Modelled from the spec: the `Step` entity of the repository's step model
(its defining file is not among the provided sources; only its accessors are
used by `tarjan.go` and the runner code).  Per §3 of the spec a step has a
unique `Name`, a set of dependency names (`Dependencies()`), and the container
metadata used by the runner: container name, image name, `Detach`, `Ports`,
`Volumes`, `Environment`, `Command` and `Args`.  The dependency set of the Go
code is a `map[string]bool`; its nondeterministic iteration order is modelled
by quantifying over the order of the `deps` list. -/
structure Step where
  name : String
  deps : List String
  containerName : String := ""
  imageName : String := ""
  detach : Bool := false
  ports : List String := []
  volumes : List String := []
  environment : List String := []
  command : String := ""
  args : List String := []
deriving Repr, DecidableEq, Inhabited

/-- names of a step mapping (the keys of the Go `map[string]Step`; in a
well-formed mapping the key equals `Step.Name()`). -/
def names (g : List Step) : List String := g.map Step.name

/-- Go `td.graph[v]` (map access; yields the zero value when absent). -/
def findStep (g : List Step) (v : String) : Step :=
  (g.find? (fun s => s.name = v)).getD default

/-- Go `_, ok := td.graph[w]` membership test. -/
def hasStep (g : List Step) (v : String) : Bool :=
  (g.find? (fun s => s.name = v)).isSome

/-- one entry of Go's `td.nodes` array: a low-link value and an on-stack flag. -/
structure TarjanNode where
  lowlink : Nat
  stacked : Bool
deriving Repr, DecidableEq, Inhabited

/-- the mutable state of `tarjanData` in `tarjan.go`: the nodes array, the
traversal stack (head of the list is the top of the Go slice), the discovery
index map (an association list, most recent entry first) and the component
output. -/
structure TarjanState where
  nodes : List TarjanNode
  stack : List Step
  index : List (String × Nat)
  output : List (List Step)
deriving Repr, DecidableEq, Inhabited

/-- the two error formats produced by `tarjan.go`, plus a fuel marker for the
embedding of the recursion (proved unreachable for adequate fuel). -/
inductive ResolveError where
  | unknownDependency (dep : String) (step : String)
  | cyclicComponent (steps : List String)
  | outOfFuel
deriving Repr, DecidableEq

/-- Go `i, seen := td.index[v]`. -/
def idxOf? (ix : List (String × Nat)) (v : String) : Option Nat :=
  (ix.find? (fun p => p.1 = v)).map Prod.snd

/-- read Go `td.nodes[i]`. -/
def nodeAt (ns : List TarjanNode) (i : Nat) : TarjanNode :=
  ns.getD i default

/-- write Go `td.nodes[i].lowlink = l`. -/
def setLowlink (ns : List TarjanNode) (i : Nat) (l : Nat) : List TarjanNode :=
  ns.set i { nodeAt ns i with lowlink := l }

/-- write Go `td.nodes[i].stacked = false`. -/
def unstackAt (ns : List TarjanNode) (i : Nat) : List TarjanNode :=
  ns.set i { nodeAt ns i with stacked := false }

/-- the component-popping loop at the end of `strongConnect` (lines 56-70 of
`tarjan.go`): walk the stack from the top, unmark each step, collect it, and
stop at the step whose discovery index equals the current root's index; the
walked entries are removed from the stack.  Returns the updated nodes array,
the collected vertices (root last, as in the Go code) and the remaining
stack. -/
def collect (ix : List (String × Nat)) (myIdx : Nat) :
    List TarjanNode → List Step → List TarjanNode × List Step × List Step
  | ns, [] => (ns, [], [])
  | ns, w :: rest =>
    let si := (idxOf? ix w.name).getD 0
    let ns1 := unstackAt ns si
    if si = myIdx then (ns1, [w], rest)
    else
      let r := collect ix myIdx ns1 rest
      (r.1, w :: r.2.1, r.2.2)

/-- the body of the `for w := range *deps` loop of `strongConnect`
(lines 36-54 of `tarjan.go`), with the recursive `strongConnect` call
abstracted as `sc` (it is instantiated with one unit less fuel). -/
def depsLoop (g : List Step)
    (sc : TarjanState → String → Except ResolveError TarjanState)
    (v : String) (myIdx : Nat) :
    TarjanState → List String → Except ResolveError TarjanState
  | st, [] => .ok st
  | st, w :: ws =>
    if hasStep g w = false then .error (.unknownDependency w v)
    else
      match idxOf? st.index w with
      | none =>
        match sc st w with
        | .error e => .error e
        | .ok st2 =>
          let wIdx := (idxOf? st2.index w).getD 0
          let nlow := (nodeAt st2.nodes wIdx).lowlink
          let st3 :=
            if nlow < (nodeAt st2.nodes myIdx).lowlink then
              { st2 with nodes := setLowlink st2.nodes myIdx nlow }
            else st2
          depsLoop g sc v myIdx st3 ws
      | some i =>
        if (nodeAt st.nodes i).stacked then
          let st2 :=
            if i < (nodeAt st.nodes myIdx).lowlink then
              { st with nodes := setLowlink st.nodes myIdx i }
            else st
          depsLoop g sc v myIdx st2 ws
        else depsLoop g sc v myIdx st ws

/-- `strongConnect` of `tarjan.go` (lines 25-73).  The `fuel` argument bounds
the recursion depth of the Go function (which is at most the number of steps);
each nested call uses one unit less. -/
def strongConnect (g : List Step) : Nat → TarjanState → String → Except ResolveError TarjanState
  | 0, _, _ => .error .outOfFuel
  | n + 1, st, v =>
    let idx := st.nodes.length
    let st1 : TarjanState :=
      { nodes := st.nodes ++ [{ lowlink := idx, stacked := true }]
        stack := findStep g v :: st.stack
        index := (v, idx) :: st.index
        output := st.output }
    match depsLoop g (strongConnect g n) v idx st1 (findStep g v).deps with
    | .error e => .error e
    | .ok st2 =>
      if (nodeAt st2.nodes idx).lowlink = idx then
        let r := collect st2.index idx st2.nodes st2.stack
        .ok { nodes := r.1, stack := r.2.2, index := st2.index,
              output := st2.output ++ [r.2.1] }
      else .ok st2

/-- the `for v := range t.graph` loop of `NewTarjan` (lines 82-89 of
`tarjan.go`); `order` is the (nondeterministic) iteration order of the Go
map. -/
def newTarjanLoop (g : List Step) : List String → TarjanState → Except ResolveError TarjanState
  | [], st => .ok st
  | v :: vs, st =>
    if (idxOf? st.index v).isSome then newTarjanLoop g vs st
    else
      match strongConnect g (g.length + 1) st v with
      | .error e => .error e
      | .ok st2 => newTarjanLoop g vs st2

/-- `NewTarjan` of `tarjan.go` (lines 75-91): run the strong-connect loop over
the map keys in iteration order `order` and return the component output. -/
def NewTarjan (g : List Step) (order : List String) : Except ResolveError (List (List Step)) :=
  (newTarjanLoop g order { nodes := [], stack := [], index := [], output := [] }).map
    TarjanState.output

/-- insert into the Go set `requirements[r] = true`. -/
def addReq (reqs : List String) (r : String) : List String :=
  if r ∈ reqs then reqs else r :: reqs

/-- the loop of `Parse` (lines 98-120 of `tarjan.go`), walking the component
output in reverse; `reqs` models the `requirements` set, `result` the
`pipelines` accumulator and `idx` the `resultIndex` cursor. -/
def parseLoop : List (List Step) → List String → List (List Step) → Nat →
    Except ResolveError (List (List Step))
  | [], _, result, _ => .ok result
  | steps :: rest, reqs, result, idx =>
    if steps.length > 1 then .error (.cyclicComponent (steps.map Step.name))
    else
      let step := steps.headD default
      let reqs1 := step.deps.foldl addReq reqs
      let reqs2 := reqs1.filter (fun r => r ≠ step.name)
      let result1 := if result.length ≤ idx then result ++ [[]] else result
      let result2 := result1.set idx (step :: result1.getD idx [])
      if reqs2.isEmpty then parseLoop rest reqs2 result2 (idx + 1)
      else parseLoop rest reqs2 result2 idx

/-- `Parse` of `tarjan.go` (lines 93-122). -/
def Parse (output : List (List Step)) : Except ResolveError (List (List Step)) :=
  parseLoop output.reverse [] [] 0

/-- the full resolution pipeline: `NewTarjan` followed by `Parse`, as the
callers of `tarjan.go` compose them. -/
def ResolvePipeline (g : List Step) (order : List String) :
    Except ResolveError (List (List Step)) :=
  match NewTarjan g order with
  | .error e => .error e
  | .ok out => Parse out

/-- direct dependency edge of the implicit graph: `u` depends on `w`. -/
def Edge (g : List Step) (u w : String) : Prop :=
  ∃ s ∈ g, s.name = u ∧ w ∈ s.deps

/-- transitive dependency. -/
def DependsOn (g : List Step) (u w : String) : Prop :=
  Relation.TransGen (Edge g) u w

/-- a step mapping is acyclic when no step transitively depends on itself. -/
def Acyclic (g : List Step) : Prop := ∀ v, ¬ DependsOn g v v

/-- two steps are connected by a dependency chain (a path in the undirected
view of the dependency graph). -/
def WeakConn (g : List Step) (u w : String) : Prop :=
  Relation.ReflTransGen (fun a b => Edge g a b ∨ Edge g b a) u w

instance (g : List Step) (u w : String) : Decidable (Edge g u w) :=
  decidable_of_iff (∃ s ∈ g, s.name = u ∧ w ∈ s.deps) Iff.rfl

instance (g : List Step) : Decidable (∀ s ∈ g, ∀ d ∈ s.deps, d ∈ names g) :=
  inferInstance

/-- decidable topological-enumeration check: every step's dependencies occur
among previously seen names.  Used to certify acyclicity of concrete
mappings. -/
def topoOk (seen : List String) : List Step → Bool
  | [] => true
  | s :: rest => s.deps.all (fun d => seen.contains d) && topoOk (s.name :: seen) rest

/-- `getContainerExecutable` of the runner source: the three environment
probes (`isWharferInstalled`, `isUserRoot`, `isUserInDockerGroup`) are passed
in as booleans. -/
def getContainerExecutable (wharferInstalled userRoot userInDockerGroup : Bool) : String :=
  if wharferInstalled then
    if userRoot || userInDockerGroup then "docker" else "wharfer"
  else "docker"

/-- rune classes of the vendored `github.com/google/shlex` lexer. -/
inductive ShlexClass where
  | space | escapingQuote | nonEscapingQuote | escape | commentCh | other
deriving Repr, DecidableEq

def doubleQuoteChar : Char := Char.ofNat 34
def singleQuoteChar : Char := Char.ofNat 39
def backslashChar : Char := Char.ofNat 92
def hashChar : Char := Char.ofNat 35
def spaceChar : Char := Char.ofNat 32
def tabChar : Char := Char.ofNat 9
def newlineChar : Char := Char.ofNat 10
def carriageReturnChar : Char := Char.ofNat 13

/-- classification of a rune by `shlex` (space runes are space, tab, carriage
return and newline; the double quote escapes, the single quote does not). -/
def classifyRune (c : Char) : ShlexClass :=
  if c = spaceChar || c = tabChar || c = carriageReturnChar || c = newlineChar then .space
  else if c = doubleQuoteChar then .escapingQuote
  else if c = singleQuoteChar then .nonEscapingQuote
  else if c = backslashChar then .escape
  else if c = hashChar then .commentCh
  else .other

/-- lexer states of `shlex.scanStream`. -/
inductive ShlexState where
  | start | inWord | escaping | escapingQuoted | quotingEscaping | quoting | commentSt
deriving Repr, DecidableEq

/-- result of scanning one token: end of input, a word token with the rest of
the input, a comment token (skipped by `Split`), or a scan error (unterminated
quote or trailing escape). -/
inductive ScanResult where
  | eof
  | word (w : List Char) (rest : List Char)
  | comment (rest : List Char)
  | errTok
deriving Repr, DecidableEq

/-- `scanStream` of `github.com/google/shlex`: one-token scanner (state
machine over the input runes, accumulating the token value). -/
def scanStream : List Char → ShlexState → List Char → ScanResult
  | [], state, val =>
    match state with
    | .start => .eof
    | .inWord => .word val []
    | .escaping => .errTok
    | .escapingQuoted => .errTok
    | .quotingEscaping => .errTok
    | .quoting => .errTok
    | .commentSt => .comment []
  | c :: rest, state, val =>
    match state with
    | .start =>
      match classifyRune c with
      | .space => scanStream rest .start val
      | .escapingQuote => scanStream rest .quotingEscaping val
      | .nonEscapingQuote => scanStream rest .quoting val
      | .escape => scanStream rest .escaping val
      | .commentCh => scanStream rest .commentSt val
      | .other => scanStream rest .inWord (val ++ [c])
    | .inWord =>
      match classifyRune c with
      | .space => .word val rest
      | .escapingQuote => scanStream rest .quotingEscaping val
      | .nonEscapingQuote => scanStream rest .quoting val
      | .escape => scanStream rest .escaping val
      | _ => scanStream rest .inWord (val ++ [c])
    | .escaping => scanStream rest .inWord (val ++ [c])
    | .escapingQuoted => scanStream rest .quotingEscaping (val ++ [c])
    | .quotingEscaping =>
      match classifyRune c with
      | .escapingQuote => scanStream rest .inWord val
      | .escape => scanStream rest .escapingQuoted val
      | _ => scanStream rest .quotingEscaping (val ++ [c])
    | .quoting =>
      match classifyRune c with
      | .nonEscapingQuote => scanStream rest .inWord val
      | _ => scanStream rest .quoting (val ++ [c])
    | .commentSt =>
      match classifyRune c with
      | .space =>
        if c = newlineChar then .comment rest
        else scanStream rest .commentSt (val ++ [c])
      | _ => scanStream rest .commentSt (val ++ [c])

/-- the token-collecting loop of `shlex.Split`: gather word tokens, skip
comment tokens, stop at end of input; on a scan error, `Split` returns the
words collected so far together with the error (the second component records
that an error occurred — the gantry caller discards it). -/
def shlexLoop : Nat → List Char → List String × Bool
  | 0, _ => ([], true)
  | n + 1, input =>
    match scanStream input .start [] with
    | .eof => ([], false)
    | .errTok => ([], true)
    | .word w rest =>
      let p := shlexLoop n rest
      (String.mk w :: p.1, p.2)
    | .comment rest => shlexLoop n rest

/-- `shlex.Split` as used at line 239 of the runner source (`tokens, _ :=
shlex.Split(step.Command)`): the word-token list, errors discarded. -/
def shlexSplit (s : String) : List String :=
  (shlexLoop (s.toList.length + 1) s.toList).1

/-- split a volume string at its first colon, Go
`strings.SplitN(volume, ":", 2)`. -/
def splitFirstColon : List Char → Option (List Char × List Char)
  | [] => none
  | x :: xs =>
    if x = ':' then some ([], xs)
    else (splitFirstColon xs).map (fun p => (x :: p.1, p.2))

/-- the `-v` argument value: the host-side component (before the first colon)
resolved with `filepath.Abs` (modelled by the ambient function `abs`), the
rest rejoined unchanged; a volume without a colon is resolved whole. -/
def volumeArg (abs : String → String) (vol : String) : String :=
  match splitFirstColon vol.toList with
  | none => abs vol
  | some p => abs (String.mk p.1) ++ ":" ++ String.mk p.2

/-- the argument-list assembly of `NewContainerRunner` (lines 211-248 of the
runner source).  `abs` models `filepath.Abs` (assumed to succeed; its error
path returns early and builds no list).  The result is `none` exactly when the
Go code panics: a non-empty `Command` whose `shlex.Split` yields no tokens
makes `tokens[0]` an out-of-range access. -/
def containerRunArgs (abs : String → String) (step : Step) : Option (List String) :=
  let args := ["run", "--name", step.containerName]
  let args := args ++ (if step.detach then ["-d"] else ["--rm"])
  let args := args ++ step.ports.flatMap (fun port => ["-p", port])
  let args := args ++ step.volumes.flatMap (fun vol => ["-v", volumeArg abs vol])
  let args := args ++ step.environment.flatMap (fun envvar => ["-e", envvar])
  if step.command ≠ "" then
    match shlexSplit step.command with
    | [] => none
    | t :: rest => some (args ++ ["--entrypoint", t] ++ [step.imageName] ++ rest)
  else
    some (args ++ [step.imageName] ++ step.args)

/-- space test of `bufio.ScanWords` (Go `isSpace`). -/
def goIsSpace (c : Char) : Bool :=
  c = spaceChar || c = tabChar || c = newlineChar || c = carriageReturnChar ||
  c = Char.ofNat 11 || c = Char.ofNat 12 || c = Char.ofNat 133 || c = Char.ofNat 160

/-- number of whitespace-delimited words in a byte stream, as counted by the
`bufio.Scanner` loop with `bufio.ScanWords`; `inWord` tells whether the
previous rune was inside a word. -/
def wordsCount (inWord : Bool) : List Char → Nat
  | [] => 0
  | c :: rest =>
    if goIsSpace c then wordsCount false rest
    else (if inWord then 0 else 1) + wordsCount true rest

def countWords (s : String) : Nat := wordsCount false s.toList

/-- errors of the image existence check: a listing failure propagated as-is,
or the `Image not found '%s'` error naming the image. -/
inductive ImageCheckError where
  | listing (e : String)
  | notFound (image : String)
deriving Repr, DecidableEq

/-- `NewImageExistenceChecker` of the runner source (lines 274-296): list
images filtered by the step's image name (the listing outcome is the
environment input `out`), count whitespace-delimited tokens of the output, and
fail with `Image not found` when the count is zero. -/
def imageExistenceCheck (imageName : String) (out : Except String String) :
    Except ImageCheckError Unit :=
  match out with
  | .error e => .error (.listing e)
  | .ok o =>
    if countWords o = 0 then .error (.notFound imageName)
    else .ok ()

/-- the temporary-directory bookkeeping of `PipelineEnvironment` restricted to
the fields `getOrCreateTempDir` and `tempDir` touch: the `tempPaths` map and
the list of directories created on disk so far (`ioutil.TempDir` calls,
modelled by the oracle `fresh` applied to the creation counter and assumed to
succeed). -/
structure TempState where
  tempPaths : List (String × String)
  created : List String
deriving Repr, DecidableEq

/-- `tempDir` of `environment.go` (lines 299-305): create a fresh directory
and record it under the given name. -/
def tempDir (fresh : Nat → String) (st : TempState) (pfx : String) : String × TempState :=
  let path := fresh st.created.length
  (path, { tempPaths := st.tempPaths ++ [(pfx, path)], created := st.created ++ [path] })

/-- `getOrCreateTempDir` of `environment.go` (lines 291-297): return the
recorded path for the name if present, otherwise create one. -/
def getOrCreateTempDir (fresh : Nat → String) (st : TempState) (pfx : String) :
    String × TempState :=
  match st.tempPaths.find? (fun p => p.1 = pfx) with
  | some p => (p.2, st)
  | none => tempDir fresh st pfx

/-- the key list of the index map. -/
def keys (ix : List (String × Nat)) : List String := ix.map Prod.fst

/-- the value list of the index map. -/
def vals (ix : List (String × Nat)) : List Nat := ix.map Prod.snd

/-- names on the traversal stack. -/
def stackNames (st : TarjanState) : List String := st.stack.map Step.name

/-- the steps finalized so far, in output order. -/
def flatOut (st : TarjanState) : List Step := st.output.flatten

/-- invariant of the general (possibly cyclic) runs of `strongConnect`: the
discovery map has distinct keys, all of them names of the mapping. -/
def GInv (g : List Step) (ix : List (String × Nat)) : Prop :=
  (keys ix).Nodup ∧ ∀ k ∈ keys ix, k ∈ names g

/-- shape of every error `strongConnect` can raise with adequate fuel: an
unknown-dependency report whose referencing step is a genuine step of the
mapping and whose dependency name is genuinely absent. -/
def ScErrOk (g : List Step) (e : ResolveError) : Prop :=
  ∃ d u, e = .unknownDependency d u ∧ u ∈ names g ∧
    d ∈ (findStep g u).deps ∧ d ∉ names g

/-- postcondition of `strongConnect` in a general run: either a well-shaped
unknown-dependency error, or success with the index extended by the newly
discovered steps, the requested step among them, and every newly indexed
step's dependency list fully present in the mapping. -/
def ScGenPost (g : List Step) (ix : List (String × Nat)) (v : String) :
    Except ResolveError TarjanState → Prop
  | .error e => ScErrOk g e
  | .ok st2 => GInv g st2.index ∧ (∃ pre, st2.index = pre ++ ix) ∧
      v ∈ keys st2.index ∧
      ∀ u ∈ keys st2.index, u ∉ keys ix →
        ∀ d ∈ (findStep g u).deps, d ∈ names g

/-- postcondition of the dependency loop in a general run. -/
def DlGenPost (g : List Step) (ix : List (String × Nat)) (ws : List String) :
    Except ResolveError TarjanState → Prop
  | .error e => ScErrOk g e
  | .ok st2 => GInv g st2.index ∧ (∃ pre, st2.index = pre ++ ix) ∧
      (∀ u ∈ keys st2.index, u ∉ keys ix →
        ∀ d ∈ (findStep g u).deps, d ∈ names g) ∧
      (∀ w ∈ ws, w ∈ names g)

/-- rank of a name in a list of names (position of first occurrence). -/
def nameRank (l : List String) (x : String) : Nat :=
  match l with
  | [] => 0
  | y :: r => if y = x then 0 else nameRank r x + 1

/-- postcondition of the `NewTarjan` loop over the map keys. -/
def NtGenPost (g : List Step) (ix : List (String × Nat)) (os : List String) :
    Except ResolveError TarjanState → Prop
  | .error e => ScErrOk g e
  | .ok st2 => GInv g st2.index ∧ (∃ pre, st2.index = pre ++ ix) ∧
      (∀ o ∈ os, o ∈ keys st2.index) ∧
      (∀ u ∈ keys st2.index, u ∉ keys ix →
        ∀ d ∈ (findStep g u).deps, d ∈ names g)

/-- the initial state of `NewTarjan`. -/
def initState : TarjanState := { nodes := [], stack := [], index := [], output := [] }

/-- the step used by the C4 witness: it references the absent name `Z`. -/
def c4Step : Step := { name := "A", deps := ["Z"] }

/-- the names seen after processing a list of steps (accumulator form used by
`topoOk`). -/
def seenAfter (seen : List String) (l : List Step) : List String :=
  l.foldl (fun a s => s.name :: a) seen

/-- completeness of a step mapping: every dependency name is present. -/
def CompleteG (g : List Step) : Prop :=
  ∀ s ∈ g, ∀ d ∈ s.deps, d ∈ names g

instance (g : List Step) : Decidable (CompleteG g) :=
  decidable_of_iff (∀ s ∈ g, ∀ d ∈ s.deps, d ∈ names g) Iff.rfl

/-- invariant of `strongConnect` runs over an acyclic complete mapping: the
discovery map is injective in both directions and consistent with the nodes
array (in a DAG every low-link stays equal to its own discovery index), the
on-stack flags mirror the traversal stack, the output consists of singleton
components of genuine steps, the indexed steps are exactly the finalized plus
the stacked ones, and the finalized steps are topologically sorted. -/
structure DInv (g : List Step) (st : TarjanState) : Prop where
  ginv : GInv g st.index
  lenEq : st.nodes.length = st.index.length
  valLt : ∀ p ∈ st.index, p.2 < st.nodes.length
  valsNodup : (vals st.index).Nodup
  low : ∀ p ∈ st.index, (nodeAt st.nodes p.2).lowlink = p.2
  stackedIff : ∀ p ∈ st.index, ((nodeAt st.nodes p.2).stacked = true ↔ p.1 ∈ stackNames st)
  stackSteps : ∀ u ∈ st.stack, u = findStep g u.name ∧ u.name ∈ keys st.index
  stackNodup : (stackNames st).Nodup
  outSingle : ∀ c ∈ st.output, ∃ s, c = [s]
  outSteps : ∀ s ∈ flatOut st, s = findStep g s.name ∧ s.name ∈ names g
  partEq : ((flatOut st).map Step.name ++ stackNames st).Perm (keys st.index)
  topo : topoOk [] (flatOut st) = true

/-- postcondition of `strongConnect` over an acyclic complete mapping:
success, the stack restored, the output extended by singleton components of
the newly discovered steps (the visited one among them), and the discovery
map extended correspondingly with fresh indices. -/
structure ScDagPost (g : List Step) (st : TarjanState) (v : String)
    (st2 : TarjanState) (newsteps : List Step) (pre : List (String × Nat)) :
    Prop where
  stackEq : st2.stack = st.stack
  outEq : st2.output = st.output ++ newsteps.map (fun s => [s])
  vMem : v ∈ newsteps.map Step.name
  newFresh : ∀ s ∈ newsteps, s.name ∉ keys st.index
  ixEq : st2.index = pre ++ st.index
  preKeys : (keys pre).Perm (newsteps.map Step.name)
  preVals : ∀ p ∈ pre, st.nodes.length ≤ p.2
  dinv : DInv g st2

/-- postcondition of the dependency loop over an acyclic complete mapping. -/
structure DlDagPost (g : List Step) (st : TarjanState) (ws : List String)
    (st2 : TarjanState) (newsteps : List Step) (pre : List (String × Nat)) :
    Prop where
  stackEq : st2.stack = st.stack
  outEq : st2.output = st.output ++ newsteps.map (fun s => [s])
  newFresh : ∀ s ∈ newsteps, s.name ∉ keys st.index
  ixEq : st2.index = pre ++ st.index
  preKeys : (keys pre).Perm (newsteps.map Step.name)
  preVals : ∀ p ∈ pre, st.nodes.length ≤ p.2
  done : ∀ w ∈ ws, w ∈ (flatOut st2).map Step.name
  dinv : DInv g st2

/-- a Pipeline Group is dependency-closed when every listed dependency of its
steps is itself a member of the group. -/
def GroupClosed (G : List Step) : Prop :=
  ∀ s ∈ G, ∀ d ∈ s.deps, d ∈ G.map Step.name

/-- the loop invariant of `Parse`: `B` is the processed suffix of the
finalized order, the groups before the cursor are dependency-closed and
non-empty, and either the requirement set is empty with all groups closed,
or the group at the cursor is still open and the requirement set holds
exactly the not-yet-satisfied dependencies of its steps. -/
def PInv (B : List Step) (reqs : List String) (result : List (List Step))
    (idx : Nat) : Prop :=
  (reqs = [] ∧ idx = result.length ∧ B = (result.reverse).flatten ∧
    (∀ G ∈ result, GroupClosed G ∧ G ≠ [])) ∨
  (∃ closed cur, result = closed ++ [cur] ∧ idx = closed.length ∧ cur ≠ [] ∧
    B = cur ++ (closed.reverse).flatten ∧ reqs ≠ [] ∧
    (∀ G ∈ closed, GroupClosed G ∧ G ≠ []) ∧
    (∀ d, d ∈ reqs ↔ (∃ t ∈ cur, d ∈ t.deps) ∧ d ∉ B.map Step.name))

/-- the chain mapping of the C1 witness: `B` depends on `A`, `C` on `B`. -/
def c1A : Step := { name := "A", deps := [] }
def c1B : Step := { name := "B", deps := ["A"] }
def c1C : Step := { name := "C", deps := ["B"] }
def c1g : List Step := [c1A, c1B, c1C]

/-- the diamond mapping of the C2 witness: `F` depends on both `D` and `E`. -/
def c2wD : Step := { name := "D", deps := [] }
def c2wE : Step := { name := "E", deps := [] }
def c2wF : Step := { name := "F", deps := ["D", "E"] }
def c2wg : List Step := [c2wD, c2wE, c2wF]

/-- a step whose `Command` is a single space: non-empty, but shell-lexing to
zero tokens. -/
def c9Step : Step :=
  { name := "s", deps := [], containerName := "c", imageName := "img",
    command := " ", args := ["a"] }

/-- a step with `Detach` false and the whitespace-only command. -/
def c5Bad : Step :=
  { name := "s", deps := [], containerName := "c", imageName := "img",
    detach := false, command := " ", args := ["a"] }

/-- a concrete foreground step exercising every clause of the assembly. -/
def c5Run : Step :=
  { name := "s", deps := [], containerName := "cn", imageName := "img",
    detach := false, ports := ["80:80"], volumes := ["./data:/data"],
    environment := ["K=V"], command := "run.sh --x", args := ["ignored"] }

/-- a concrete step with empty command. -/
def c5Plain : Step :=
  { name := "p", deps := [], containerName := "cp", imageName := "imgp",
    detach := true, args := ["a1"] }

/-- a step listing its own name among its dependencies. -/
def c3Self : Step := { name := "a", deps := ["a"] }

def c7G : Step := { name := "G", deps := [] }
def c7H : Step := { name := "H", deps := [] }

def c2A : Step := { name := "A", deps := [] }
def c2B : Step := { name := "B", deps := ["A"] }
def c2X : Step := { name := "X", deps := [] }

/-- the mapping of the counterexample: `B` depends on `A`; `X` is fully
unrelated. -/
def c2g : List Step := [c2A, c2B, c2X]

/-! helper lemmas about association-list lookup -/

theorem find?_append_none {α : Type} (p : α → Bool) (l1 l2 : List α)
    (h : l1.find? p = none) : (l1 ++ l2).find? p = l2.find? p := by
  induction l1 with
  | nil => rfl
  | cons a t ih =>
    cases hp : p a with
    | true =>
      rw [List.find?_cons_of_pos _ hp] at h
      exact absurd h (by simp)
    | false =>
      rw [List.find?_cons_of_neg _ (by simp [hp])] at h
      show List.find? p (a :: (t ++ l2)) = _
      rw [List.find?_cons_of_neg _ (by simp [hp])]
      exact ih h

theorem find?_append_some {α : Type} (p : α → Bool) (l1 l2 : List α) (a : α)
    (h : l1.find? p = some a) : (l1 ++ l2).find? p = some a := by
  induction l1 with
  | nil => simp at h
  | cons x t ih =>
    cases hp : p x with
    | true =>
      rw [List.find?_cons_of_pos _ hp] at h
      show List.find? p (x :: (t ++ l2)) = _
      rw [List.find?_cons_of_pos _ hp]
      exact h
    | false =>
      rw [List.find?_cons_of_neg _ (by simp [hp])] at h
      show List.find? p (x :: (t ++ l2)) = _
      rw [List.find?_cons_of_neg _ (by simp [hp])]
      exact ih h

/-! basic facts about names, findStep and the index map -/

theorem mem_names_iff (g : List Step) (v : String) :
    v ∈ names g ↔ ∃ s ∈ g, s.name = v := by
  simp [names]

theorem hasStep_iff_mem_names (g : List Step) (v : String) :
    hasStep g v = true ↔ v ∈ names g := by
  simp [hasStep, names, List.find?_isSome]

theorem findStep_spec (g : List Step) (v : String) (h : v ∈ names g) :
    findStep g v ∈ g ∧ (findStep g v).name = v := by
  unfold findStep
  cases hf : g.find? (fun s => s.name = v) with
  | none =>
    rw [List.find?_eq_none] at hf
    obtain ⟨s, hs, hn⟩ := (mem_names_iff g v).mp h
    exact absurd (by simpa using hn) (hf s hs)
  | some s =>
    have h1 := List.find?_some hf
    have h2 := List.mem_of_find?_eq_some hf
    simp at h1
    exact ⟨h2, h1⟩

theorem findStep_eq_of_mem (g : List Step) (hnd : (names g).Nodup)
    (s : Step) (hs : s ∈ g) : findStep g s.name = s := by
  induction g with
  | nil => simp at hs
  | cons t rest ih =>
    have hcons : names (t :: rest) = t.name :: names rest := by simp [names]
    rw [hcons] at hnd
    have hnd2 : (names rest).Nodup := (List.nodup_cons.mp hnd).2
    have hnot : t.name ∉ names rest := (List.nodup_cons.mp hnd).1
    rcases List.mem_cons.mp hs with rfl | hmem
    · unfold findStep
      rw [List.find?_cons_of_pos _ (by simp)]
      rfl
    · have hne : t.name ≠ s.name := by
        intro he
        exact hnot (he ▸ (by exact (mem_names_iff rest s.name).mpr ⟨s, hmem, rfl⟩))
      unfold findStep
      rw [List.find?_cons_of_neg _ (by simpa using hne)]
      exact ih hnd2 hmem

theorem idxOf?_none_iff (ix : List (String × Nat)) (v : String) :
    idxOf? ix v = none ↔ v ∉ keys ix := by
  rcases hf : ix.find? (fun q => q.1 = v) with _ | q
  · constructor
    · intro _ hmem
      obtain ⟨i, hp⟩ : ∃ i, (v, i) ∈ ix := by simpa [keys] using hmem
      have h3 := List.find?_eq_none.mp hf (v, i) hp
      simp at h3
    · intro _
      simp [idxOf?, hf]
  · have h1 := List.find?_some hf
    have h2 := List.mem_of_find?_eq_some hf
    simp at h1
    constructor
    · intro h
      simp [idxOf?, hf] at h
    · intro h
      exact absurd (by simp [keys]; exact ⟨q.2, h1 ▸ h2⟩) h

theorem idxOf?_isSome_iff (ix : List (String × Nat)) (v : String) :
    (idxOf? ix v).isSome = true ↔ v ∈ keys ix := by
  rcases h : idxOf? ix v with _ | i
  · simp [(idxOf?_none_iff ix v).mp h]
  · simp
    rcases hf : ix.find? (fun p => p.1 = v) with _ | q
    · simp [idxOf?, hf] at h
    · have h1 := List.find?_some hf
      have h2 := List.mem_of_find?_eq_some hf
      simp at h1
      exact h1 ▸ (by simp [keys]; exact ⟨q.2, by simpa using h2⟩)

theorem idxOf?_mem (ix : List (String × Nat)) (v : String) (i : Nat)
    (h : idxOf? ix v = some i) : (v, i) ∈ ix := by
  rcases hf : ix.find? (fun p => p.1 = v) with _ | q
  · simp [idxOf?, hf] at h
  · have h1 := List.find?_some hf
    have h2 := List.mem_of_find?_eq_some hf
    simp [idxOf?, hf] at h
    simp at h1
    have : q = (v, i) := by
      cases q
      simp_all
    exact this ▸ h2

theorem idxOf?_of_mem (ix : List (String × Nat)) (v : String) (i : Nat)
    (hnd : (keys ix).Nodup) (h : (v, i) ∈ ix) : idxOf? ix v = some i := by
  induction ix with
  | nil => simp at h
  | cons q rest ih =>
    have hcons : keys (q :: rest) = q.1 :: keys rest := rfl
    rw [hcons] at hnd
    have hnd2 : (keys rest).Nodup := (List.nodup_cons.mp hnd).2
    have hnot : q.1 ∉ keys rest := (List.nodup_cons.mp hnd).1
    rcases List.mem_cons.mp h with rfl | hmem
    · unfold idxOf?
      rw [List.find?_cons_of_pos _ (by simp)]
      rfl
    · have hne : q.1 ≠ v := by
        intro he
        exact hnot (by simp [keys]; exact ⟨i, he ▸ hmem⟩)
      unfold idxOf?
      rw [List.find?_cons_of_neg _ (by simpa using hne)]
      exact ih hnd2 hmem

theorem keys_append (a b : List (String × Nat)) : keys (a ++ b) = keys a ++ keys b := by
  simp [keys]

theorem mem_keys_of_mem {ix : List (String × Nat)} {p : String × Nat}
    (h : p ∈ ix) : p.1 ∈ keys ix := by
  simp [keys]
  exact ⟨p.2, h⟩

/-! cardinality facts for nodup lists -/

theorem nodup_subset_length {l1 l2 : List String} (h1 : l1.Nodup)
    (hsub : ∀ x ∈ l1, x ∈ l2) : l1.length ≤ l2.length := by
  calc l1.length = l1.toFinset.card := (List.toFinset_card_of_nodup h1).symm
    _ ≤ l2.toFinset.card := by
        apply Finset.card_le_card
        intro x hx
        simp only [List.mem_toFinset] at hx ⊢
        exact hsub x hx
    _ ≤ l2.length := l2.toFinset_card_le

theorem nodup_ssubset_length {l1 l2 : List String} (h1 : l1.Nodup)
    (hsub : ∀ x ∈ l1, x ∈ l2) (v : String) (hv2 : v ∈ l2) (hv1 : v ∉ l1) :
    l1.length < l2.length := by
  calc l1.length = l1.toFinset.card := (List.toFinset_card_of_nodup h1).symm
    _ < l2.toFinset.card := by
        apply Finset.card_lt_card
        constructor
        · intro x hx
          simp only [List.mem_toFinset] at hx ⊢
          exact hsub x hx
        · intro hcon
          exact hv1 (by simpa using hcon (by simpa using hv2))
    _ ≤ l2.length := l2.toFinset_card_le

/-! acyclicity certificates from topological enumerations -/

theorem topoOk_split (l : List Step) :
    ∀ (seen : List String) (X : List Step) (t : Step) (Y : List Step),
      topoOk seen l = true → l = X ++ t :: Y →
      ∀ d ∈ t.deps, d ∈ seen ∨ d ∈ names X := by
  induction l with
  | nil =>
    intro seen X t Y h he
    exact absurd he (by simp)
  | cons s rest ih =>
    intro seen X t Y h he
    simp only [topoOk, Bool.and_eq_true, List.all_eq_true] at h
    cases X with
    | nil =>
      simp at he
      intro d hd
      exact Or.inl (by simpa using h.1 d (he.1 ▸ hd))
    | cons x X2 =>
      simp at he
      intro d hd
      rcases ih (s.name :: seen) X2 t Y (he.1 ▸ h.2) he.2 d hd with hh | hh
      · rcases List.mem_cons.mp hh with rfl | hh2
        · exact Or.inr (by simp [names, he.1])
        · exact Or.inl hh2
      · exact Or.inr (by simp [names]; right; simpa [names] using hh)


theorem nameRank_append_mem (X Y : List String) (x : String) (h : x ∈ X) :
    nameRank (X ++ Y) x < X.length := by
  induction X with
  | nil => simp at h
  | cons y X2 ih =>
    by_cases he : y = x
    · simp [nameRank, he]
    · rcases List.mem_cons.mp h with rfl | h2
      · exact absurd rfl he
      · simpa [nameRank, he] using ih h2

theorem nameRank_append_not_mem (X Y : List String) (x : String) (h : x ∉ X) :
    nameRank (X ++ x :: Y) x = X.length := by
  induction X with
  | nil => simp [nameRank]
  | cons y X2 ih =>
    have : y ≠ x := fun he => h (he ▸ List.mem_cons_self y X2)
    simpa [nameRank, this] using ih (fun h2 => h (List.mem_cons_of_mem y h2))

theorem edge_rank (g l : List Step) (hsub : ∀ s ∈ g, s ∈ l)
    (hnd : (names l).Nodup) (ht : topoOk [] l = true) (u w : String)
    (he : Edge g u w) : nameRank (names l) w < nameRank (names l) u := by
  obtain ⟨s, hs, hname, hdep⟩ := he
  obtain ⟨X, Y, hXY⟩ := List.append_of_mem (hsub s hs)
  have hw : w ∈ names X := by
    rcases topoOk_split l [] X s Y ht hXY w hdep with h | h
    · simp at h
    · exact h
  have hnames : names l = names X ++ s.name :: names Y := by
    simp [hXY, names]
  have hu_not : s.name ∉ names X := by
    rw [hnames] at hnd
    have := List.nodup_append.mp hnd
    exact fun hmem => this.2.2 hmem (List.mem_cons_self _ _)
  subst hname
  rw [hnames, nameRank_append_not_mem (names X) (names Y) s.name hu_not]
  exact nameRank_append_mem (names X) (s.name :: names Y) w hw

theorem acyclic_of_topoOk (g l : List Step) (hsub : ∀ s ∈ g, s ∈ l)
    (hnd : (names l).Nodup) (ht : topoOk [] l = true) : Acyclic g := by
  intro v h
  have key : ∀ a b, DependsOn g a b →
      nameRank (names l) b < nameRank (names l) a := by
    intro a b hab
    induction hab with
    | single he => exact edge_rank g l hsub hnd ht _ _ he
    | tail hd he ih => exact lt_trans (edge_rank g l hsub hnd ht _ _ he) ih
  exact absurd (key v v h) (lt_irrefl _)

/-! the general invariant of `strongConnect` (no acyclicity assumed):
errors are well-shaped unknown-dependency reports, fuel never runs out,
and on success every newly indexed step has all dependencies present. -/

theorem dlGen (g : List Step) (n : Nat)
    (sc : TarjanState → String → Except ResolveError TarjanState)
    (hsc : ∀ st v, GInv g st.index → v ∈ names g → idxOf? st.index v = none →
      g.length ≤ st.index.length + n → ScGenPost g st.index v (sc st v)) :
    ∀ (ws : List String) (st : TarjanState) (v : String) (myIdx : Nat),
      GInv g st.index → v ∈ names g →
      (∀ w ∈ ws, w ∈ (findStep g v).deps) →
      g.length ≤ st.index.length + n →
      DlGenPost g st.index ws (depsLoop g sc v myIdx st ws) := by
  intro ws
  induction ws with
  | nil =>
    intro st v myIdx hinv hv hws hfuel
    exact ⟨hinv, ⟨[], rfl⟩, fun u hu hnu => absurd hu hnu, by simp⟩
  | cons w ws2 ih =>
    intro st v myIdx hinv hv hws hfuel
    have step_same_index : ∀ st2 : TarjanState, w ∈ names g → st2.index = st.index →
        DlGenPost g st2.index ws2 (depsLoop g sc v myIdx st2 ws2) →
        DlGenPost g st.index (w :: ws2) (depsLoop g sc v myIdx st2 ws2) := by
      intro st2 hwnames heq hpost
      rw [heq] at hpost
      cases hres : depsLoop g sc v myIdx st2 ws2 with
      | error e => simpa [DlGenPost, hres] using hpost
      | ok st3 =>
        simp only [DlGenPost, hres] at hpost ⊢
        obtain ⟨hi, ⟨pre, hpre⟩, hcomp, hpres⟩ := hpost
        exact ⟨hi, ⟨pre, hpre⟩, hcomp,
          fun x hx => by
            rcases List.mem_cons.mp hx with rfl | hx2
            · exact hwnames
            · exact hpres x hx2⟩
    show DlGenPost g st.index (w :: ws2) (depsLoop g sc v myIdx st (w :: ws2))
    unfold depsLoop
    split
    · next hw =>
      exact ⟨w, v, rfl, hv,
        hws w (List.mem_cons_self w ws2),
        fun hmem => by simp [(hasStep_iff_mem_names g w).mpr hmem] at hw⟩
    · next hw =>
      have hwt : hasStep g w = true := by
        cases h : hasStep g w
        · exact absurd h hw
        · rfl
      have hwnames : w ∈ names g := (hasStep_iff_mem_names g w).mp hwt
      split
      · next hidx =>
        have hpost := hsc st w hinv hwnames hidx hfuel
        split
        · next e hres =>
          rw [hres] at hpost
          exact hpost
        · next st2 hres =>
          rw [hres] at hpost
          obtain ⟨hinv2, ⟨pre, hpre⟩, hwmem, hcomp⟩ := hpost
          have hfuel2 : g.length ≤ st2.index.length + n := by
            rw [hpre]
            simp only [List.length_append]
            omega
          have hcont : ∀ st3 : TarjanState, st3.index = st2.index →
              DlGenPost g st.index (w :: ws2) (depsLoop g sc v myIdx st3 ws2) := by
            intro st3 heq
            have hinv3 : GInv g st3.index := by rw [heq]; exact hinv2
            have hfuel3 : g.length ≤ st3.index.length + n := by rw [heq]; exact hfuel2
            have hpost3 := ih st3 v myIdx hinv3 hv
              (fun x hx => hws x (List.mem_cons_of_mem w hx)) hfuel3
            cases hres3 : depsLoop g sc v myIdx st3 ws2 with
            | error e => simpa [DlGenPost, hres3] using hpost3
            | ok st4 =>
              simp only [DlGenPost, hres3] at hpost3 ⊢
              obtain ⟨hi4, ⟨pre4, hpre4⟩, hcomp4, hpres4⟩ := hpost3
              refine ⟨hi4, ⟨pre4 ++ pre, by rw [hpre4, heq, hpre, List.append_assoc]⟩,
                ?_, ?_⟩
              · intro u hu hnu
                by_cases hu2 : u ∈ keys st2.index
                · exact hcomp u hu2 hnu
                · exact hcomp4 u hu (by rw [heq]; exact hu2)
              · intro x hx
                rcases List.mem_cons.mp hx with rfl | hx2
                · exact hwnames
                · exact hpres4 x hx2
          exact hcont _ (by split <;> rfl)
      · next i hidx =>
        split
        · next hstk =>
          split
          · next hlow =>
            exact step_same_index _ hwnames rfl
              (ih _ v myIdx hinv hv
                (fun x hx => hws x (List.mem_cons_of_mem w hx)) hfuel)
          · next hlow =>
            exact step_same_index _ hwnames rfl
              (ih _ v myIdx hinv hv (fun x hx => hws x (List.mem_cons_of_mem w hx)) hfuel)
        · next hstk =>
          exact step_same_index _ hwnames rfl
            (ih _ v myIdx hinv hv (fun x hx => hws x (List.mem_cons_of_mem w hx)) hfuel)

theorem scGen (g : List Step) : ∀ (n : Nat) (st : TarjanState) (v : String),
    GInv g st.index → v ∈ names g → idxOf? st.index v = none →
    g.length ≤ st.index.length + n →
    ScGenPost g st.index v (strongConnect g n st v) := by
  intro n
  induction n with
  | zero =>
    intro st v hinv hv hidx hfuel
    have hlt : (keys st.index).length < (names g).length :=
      nodup_ssubset_length hinv.1 hinv.2 v hv ((idxOf?_none_iff _ _).mp hidx)
    have h1 : (keys st.index).length = st.index.length := by simp [keys]
    have h2 : (names g).length = g.length := by simp [names]
    omega
  | succ n ih =>
    intro st v hinv hv hidx hfuel
    have hvnot : v ∉ keys st.index := (idxOf?_none_iff _ _).mp hidx
    have hinv1 : GInv g ((v, st.nodes.length) :: st.index) := by
      constructor
      · exact List.nodup_cons.mpr ⟨hvnot, hinv.1⟩
      · intro k hk
        rcases List.mem_cons.mp hk with rfl | hk2
        · exact hv
        · exact hinv.2 k hk2
    have hgoal : ∀ st2 : TarjanState,
        st2.index = (v, st.nodes.length) :: st.index →
        DlGenPost g ((v, st.nodes.length) :: st.index) (findStep g v).deps
          (depsLoop g (strongConnect g n) v st.nodes.length st2 (findStep g v).deps) →
        ScGenPost g st.index v
          (match depsLoop g (strongConnect g n) v st.nodes.length st2 (findStep g v).deps with
           | .error e => .error e
           | .ok st3 =>
             if (nodeAt st3.nodes st.nodes.length).lowlink = st.nodes.length then
               .ok { nodes := (collect st3.index st.nodes.length st3.nodes st3.stack).1,
                     stack := (collect st3.index st.nodes.length st3.nodes st3.stack).2.2,
                     index := st3.index,
                     output := st3.output ++
                       [(collect st3.index st.nodes.length st3.nodes st3.stack).2.1] }
             else .ok st3) := by
      intro st2 heq2 hdl
      cases hres : depsLoop g (strongConnect g n) v st.nodes.length st2 (findStep g v).deps with
      | error e =>
        rw [hres] at hdl
        exact hdl
      | ok st3 =>
        rw [hres] at hdl
        dsimp only
        obtain ⟨hinv2, ⟨pre, hpre⟩, hcomp, hpres⟩ := hdl
        have hok : ∀ st4 : TarjanState, st4.index = st3.index →
            ScGenPost g st.index v (.ok st4) := by
          intro st4 heq
          have hix : st4.index = (pre ++ [(v, st.nodes.length)]) ++ st.index := by
            rw [heq, hpre, List.append_assoc]
            rfl
          refine ⟨by rw [heq]; exact hinv2, ⟨pre ++ [(v, st.nodes.length)], hix⟩, ?_, ?_⟩
          · rw [heq, hpre, keys_append]
            exact List.mem_append_right _ (List.mem_cons_self _ _)
          · intro u hu hnu
            by_cases hu1 : u ∈ keys ((v, st.nodes.length) :: st.index)
            · have : u = v := by
                rcases List.mem_cons.mp hu1 with h | h
                · exact h
                · exact absurd h hnu
              exact this ▸ hpres
            · exact hcomp u (by rw [heq] at hu; exact hu) hu1
        by_cases hroot : (nodeAt st3.nodes st.nodes.length).lowlink = st.nodes.length
        · rw [if_pos hroot]
          exact hok _ rfl
        · rw [if_neg hroot]
          exact hok _ rfl
    have hdl := dlGen g n (strongConnect g n) (fun st2 v2 => ih st2 v2)
      (findStep g v).deps
      { nodes := st.nodes ++ [{ lowlink := st.nodes.length, stacked := true }]
        stack := findStep g v :: st.stack
        index := (v, st.nodes.length) :: st.index
        output := st.output } v st.nodes.length hinv1 hv (fun x hx => hx)
      (by simp only [List.length_cons]; omega)
    exact hgoal _ rfl hdl


theorem ntLoopGen (g : List Step) : ∀ (os : List String) (st : TarjanState),
    GInv g st.index → (∀ o ∈ os, o ∈ names g) →
    NtGenPost g st.index os (newTarjanLoop g os st) := by
  intro os
  induction os with
  | nil =>
    intro st hinv hos
    exact ⟨hinv, ⟨[], rfl⟩, by simp, fun u hu hnu => absurd hu hnu⟩
  | cons v vs ih =>
    intro st hinv hos
    show NtGenPost g st.index (v :: vs) (newTarjanLoop g (v :: vs) st)
    unfold newTarjanLoop
    split
    · next hv =>
      have hrest := ih st hinv (fun o ho => hos o (List.mem_cons_of_mem v ho))
      cases hres : newTarjanLoop g vs st with
      | error e => simpa [NtGenPost, hres] using hrest
      | ok st2 =>
        rw [hres] at hrest
        obtain ⟨hi, ⟨pre, hpre⟩, hmem, hcomp⟩ := hrest
        refine ⟨hi, ⟨pre, hpre⟩, ?_, hcomp⟩
        intro o ho
        rcases List.mem_cons.mp ho with rfl | ho2
        · rw [hpre, keys_append]
          exact List.mem_append_right _ ((idxOf?_isSome_iff _ _).mp hv)
        · exact hmem o ho2
    · next hv =>
      have hidx : idxOf? st.index v = none := by
        rcases h : idxOf? st.index v with _ | i
        · rfl
        · exact absurd (by simp [h]) hv
      have hsc := scGen g (g.length + 1) st v hinv (hos v (List.mem_cons_self v vs)) hidx
        (by omega)
      split
      · next e hres =>
        rw [hres] at hsc
        exact hsc
      · next st2 hres =>
        rw [hres] at hsc
        obtain ⟨hinv2, ⟨pre, hpre⟩, hvmem, hcomp⟩ := hsc
        have hrest := ih st2 hinv2 (fun o ho => hos o (List.mem_cons_of_mem v ho))
        cases hres2 : newTarjanLoop g vs st2 with
        | error e => simpa [NtGenPost, hres2] using hrest
        | ok st3 =>
          rw [hres2] at hrest
          obtain ⟨hi3, ⟨pre3, hpre3⟩, hmem3, hcomp3⟩ := hrest
          refine ⟨hi3, ⟨pre3 ++ pre, by rw [hpre3, hpre, List.append_assoc]⟩, ?_, ?_⟩
          · intro o ho
            rcases List.mem_cons.mp ho with rfl | ho2
            · rw [hpre3, keys_append]
              exact List.mem_append_right _ hvmem
            · exact hmem3 o ho2
          · intro u hu hnu
            by_cases hu2 : u ∈ keys st2.index
            · exact hcomp u hu2 hnu
            · exact hcomp3 u hu hu2


theorem newTarjan_eq (g : List Step) (order : List String) :
    NewTarjan g order = (newTarjanLoop g order initState).map TarjanState.output := rfl

/-- a step mapping with a dependency name absent from the mapping makes
`NewTarjan` fail with a well-shaped unknown-dependency error (shared lemma). -/
theorem ntMissingDep (g : List Step) (order : List String)
    (hnd : (names g).Nodup) (hcov : ∀ x ∈ names g, x ∈ order)
    (hord : ∀ o ∈ order, o ∈ names g)
    (s : Step) (hs : s ∈ g) (d : String) (hd : d ∈ s.deps) (hmiss : d ∉ names g) :
    ∃ d2 v2, NewTarjan g order = .error (.unknownDependency d2 v2) ∧
      v2 ∈ names g ∧ d2 ∈ (findStep g v2).deps ∧ d2 ∉ names g := by
  have hinv0 : GInv g initState.index := ⟨List.nodup_nil, by simp [initState, keys]⟩
  have hpost := ntLoopGen g order initState hinv0 hord
  cases hres : newTarjanLoop g order initState with
  | error e =>
    rw [hres] at hpost
    obtain ⟨d2, v2, he, hv2, hd2, hm2⟩ := hpost
    exact ⟨d2, v2, by rw [newTarjan_eq, hres, he]; rfl, hv2, hd2, hm2⟩
  | ok st2 =>
    exfalso
    rw [hres] at hpost
    obtain ⟨hi, _, hmem, hcomp⟩ := hpost
    have hsname : s.name ∈ keys st2.index :=
      hmem s.name (hcov s.name ((mem_names_iff g s.name).mpr ⟨s, hs, rfl⟩))
    have hall := hcomp s.name hsname (by simp [initState, keys])
    rw [findStep_eq_of_mem g hnd s hs] at hall
    exact hmiss (hall d hd)

/-- on success of `NewTarjan` over a full iteration order, every step's
dependency list is fully present in the mapping (shared lemma). -/
theorem newTarjan_ok_complete (g : List Step) (order : List String)
    (out : List (List Step)) (hnd : (names g).Nodup)
    (hcov : ∀ x ∈ names g, x ∈ order) (hord : ∀ o ∈ order, o ∈ names g)
    (h : NewTarjan g order = .ok out) :
    ∀ s ∈ g, ∀ d ∈ s.deps, d ∈ names g := by
  intro s hs d hd
  by_contra hmiss
  obtain ⟨d2, v2, he, _, _, _⟩ := ntMissingDep g order hnd hcov hord s hs d hd hmiss
  rw [h] at he
  exact Except.noConfusion he

/-! ## Claim C4 — unknown dependency reporting -/

/-- Claim C4: for every step mapping in which some step lists a dependency
name absent from the mapping, `NewTarjan` (under any iteration order of the
map keys) fails with an unknown-dependency error naming a referencing step
and the missing name it references — never a cycle error, which only `Parse`
can produce and which is never reached. -/
theorem unknown_dependency_reported (g : List Step) (order : List String)
    (hnd : (names g).Nodup) (hperm : order.Perm (names g))
    (s : Step) (hs : s ∈ g) (d : String) (hd : d ∈ s.deps) (hmiss : d ∉ names g) :
    ∃ d2 v2, NewTarjan g order = .error (.unknownDependency d2 v2) ∧
      v2 ∈ names g ∧ d2 ∈ (findStep g v2).deps ∧ d2 ∉ names g :=
  ntMissingDep g order hnd (fun x hx => hperm.mem_iff.mpr hx)
    (fun o ho => hperm.mem_iff.mp ho) s hs d hd hmiss


/-- Claim C4 witness: the unknown-dependency theorem applied to a concrete
one-step mapping referencing an absent name. -/
theorem unknown_dependency_reported_witness :
    ∃ d2 v2, NewTarjan [c4Step] ["A"] = .error (.unknownDependency d2 v2) ∧
      v2 ∈ names [c4Step] ∧ d2 ∈ (findStep [c4Step] v2).deps ∧ d2 ∉ names [c4Step] :=
  unknown_dependency_reported [c4Step] ["A"] (by decide) (by decide)
    c4Step (by decide) "Z" (by decide) (by decide)

/-! ## the acyclic-case invariant of `strongConnect` -/


theorem seenAfter_mem (seen : List String) (l : List Step) (x : String) :
    x ∈ seenAfter seen l ↔ x ∈ seen ∨ x ∈ l.map Step.name := by
  induction l generalizing seen with
  | nil => simp [seenAfter]
  | cons s rest ih =>
    show x ∈ seenAfter (s.name :: seen) rest ↔ _
    rw [ih]
    simp [List.mem_cons]
    tauto

theorem topoOk_append (seen : List String) (l1 l2 : List Step) :
    topoOk seen (l1 ++ l2) = (topoOk seen l1 && topoOk (seenAfter seen l1) l2) := by
  induction l1 generalizing seen with
  | nil => simp [topoOk, seenAfter]
  | cons s rest ih =>
    show topoOk seen (s :: (rest ++ l2)) = _
    simp only [topoOk, ih (s.name :: seen), seenAfter, List.foldl_cons, Bool.and_assoc]

theorem topoOk_mono (seen1 seen2 : List String) (l : List Step)
    (hsub : ∀ x ∈ seen1, x ∈ seen2) (h : topoOk seen1 l = true) :
    topoOk seen2 l = true := by
  induction l generalizing seen1 seen2 with
  | nil => rfl
  | cons s rest ih =>
    simp only [topoOk, Bool.and_eq_true, List.all_eq_true] at h ⊢
    refine ⟨fun d hd => ?_, ih (s.name :: seen1) (s.name :: seen2) ?_ h.2⟩
    · have := h.1 d hd
      simp only [List.elem_eq_mem, decide_eq_true_eq] at this ⊢
      exact hsub d this
    · intro x hx
      rcases List.mem_cons.mp hx with rfl | hx2
      · exact List.mem_cons_self _ _
      · exact List.mem_cons_of_mem _ (hsub x hx2)

/-! small facts about `nodeAt`, `setLowlink`, `unstackAt` -/

theorem nodeAt_append_lt (ns ms : List TarjanNode) (i : Nat) (h : i < ns.length) :
    nodeAt (ns ++ ms) i = nodeAt ns i := by
  induction ns generalizing i with
  | nil => simp at h
  | cons a t ih =>
    cases i with
    | zero => rfl
    | succ j => exact ih j (by simpa using h)

theorem nodeAt_append_len (ns : List TarjanNode) (x : TarjanNode) :
    nodeAt (ns ++ [x]) ns.length = x := by
  induction ns with
  | nil => rfl
  | cons a t ih => simpa using ih

theorem nodeAt_set_self (ns : List TarjanNode) (i : Nat) (x : TarjanNode)
    (h : i < ns.length) : nodeAt (ns.set i x) i = x := by
  induction ns generalizing i with
  | nil => simp at h
  | cons a t ih =>
    cases i with
    | zero => rfl
    | succ j => exact ih j (by simpa using h)

theorem nodeAt_set_ne (ns : List TarjanNode) (i j : Nat) (x : TarjanNode)
    (h : i ≠ j) : nodeAt (ns.set i x) j = nodeAt ns j := by
  induction ns generalizing i j with
  | nil => rfl
  | cons a t ih =>
    cases i with
    | zero =>
      cases j with
      | zero => exact absurd rfl h
      | succ j2 => rfl
    | succ i2 =>
      cases j with
      | zero => rfl
      | succ j2 => exact ih i2 j2 (fun he => h (he ▸ rfl))

theorem length_unstackAt (ns : List TarjanNode) (i : Nat) :
    (unstackAt ns i).length = ns.length := by
  simp [unstackAt]

theorem nodeAt_unstackAt_self (ns : List TarjanNode) (i : Nat) (h : i < ns.length) :
    nodeAt (unstackAt ns i) i = { nodeAt ns i with stacked := false } :=
  nodeAt_set_self ns i _ h

theorem nodeAt_unstackAt_ne (ns : List TarjanNode) (i j : Nat) (h : i ≠ j) :
    nodeAt (unstackAt ns i) j = nodeAt ns j :=
  nodeAt_set_ne ns i j _ h

theorem flatten_singletons (l : List Step) : (l.map (fun s => [s])).flatten = l := by
  induction l with
  | nil => rfl
  | cons a t ih => simp [ih]

theorem flatOut_of_outEq {st st2 : TarjanState} {news : List Step}
    (h : st2.output = st.output ++ news.map (fun s => [s])) :
    flatOut st2 = flatOut st ++ news := by
  simp [flatOut, h, flatten_singletons]

theorem dlDag (g : List Step) (hacy : Acyclic g) (hnd : (names g).Nodup)
    (hcompl : CompleteG g) (n : Nat)
    (sc : TarjanState → String → Except ResolveError TarjanState)
    (hsc : ∀ st v, DInv g st → v ∈ names g → idxOf? st.index v = none →
      (∀ u ∈ st.stack, DependsOn g u.name v) →
      g.length ≤ st.index.length + n →
      ∃ st2 newsteps pre, sc st v = .ok st2 ∧ ScDagPost g st v st2 newsteps pre) :
    ∀ (ws : List String) (st : TarjanState) (v : String) (myIdx : Nat),
      DInv g st → v ∈ names g → (v, myIdx) ∈ st.index →
      (∀ w ∈ ws, w ∈ (findStep g v).deps) →
      (∀ u ∈ st.stack, u.name = v ∨ DependsOn g u.name v) →
      g.length ≤ st.index.length + n →
      ∃ st2 newsteps pre, depsLoop g sc v myIdx st ws = .ok st2 ∧
        DlDagPost g st ws st2 newsteps pre := by
  intro ws
  induction ws with
  | nil =>
    intro st v myIdx hinv hv hvix hws hstk hfuel
    exact ⟨st, [], [], rfl,
      { stackEq := rfl, outEq := by simp, newFresh := by simp,
        ixEq := rfl, preKeys := by simp [keys], preVals := by simp,
        done := by simp, dinv := hinv }⟩
  | cons w ws2 ih =>
    intro st v myIdx hinv hv hvix hws hstk hfuel
    have hvstep := findStep_spec g v hv
    have hwdep : w ∈ (findStep g v).deps := hws w (List.mem_cons_self w ws2)
    have hwname : w ∈ names g := hcompl (findStep g v) hvstep.1 w hwdep
    have hedge : Edge g v w := ⟨findStep g v, hvstep.1, hvstep.2, hwdep⟩
    have hws2 : ∀ x ∈ ws2, x ∈ (findStep g v).deps :=
      fun x hx => hws x (List.mem_cons_of_mem w hx)
    show ∃ st2 newsteps pre, depsLoop g sc v myIdx st (w :: ws2) = .ok st2 ∧
      DlDagPost g st (w :: ws2) st2 newsteps pre
    unfold depsLoop
    split
    · next hwf =>
      have htrue := (hasStep_iff_mem_names g w).mpr hwname
      rw [hwf] at htrue
      exact Bool.noConfusion htrue
    · next hwf =>
      split
      · next hidx =>
        have hstkw : ∀ u ∈ st.stack, DependsOn g u.name w := by
          intro u hu
          rcases hstk u hu with he | hdep
          · exact he ▸ Relation.TransGen.single hedge
          · exact hdep.trans (Relation.TransGen.single hedge)
        obtain ⟨st2, newsA, preA, hres, post⟩ := hsc st w hinv hwname hidx hstkw hfuel
        rw [hres]
        dsimp only
        have hnd2 : (keys st2.index).Nodup := post.dinv.ginv.1
        have hwkeys : w ∈ keys preA := post.preKeys.mem_iff.mpr post.vMem
        obtain ⟨j, hpmem⟩ : ∃ j, (w, j) ∈ preA := by simpa [keys] using hwkeys
        have hjge : st.nodes.length ≤ j := post.preVals _ hpmem
        have hwix : (w, j) ∈ st2.index := by
          rw [post.ixEq]
          exact List.mem_append_left _ hpmem
        have hidx2 : idxOf? st2.index w = some j := idxOf?_of_mem _ _ _ hnd2 hwix
        have hvix2 : (v, myIdx) ∈ st2.index := by
          rw [post.ixEq]
          exact List.mem_append_right _ hvix
        have hlowv : (nodeAt st2.nodes myIdx).lowlink = myIdx := post.dinv.low _ hvix2
        have hloww : (nodeAt st2.nodes j).lowlink = j := post.dinv.low _ hwix
        have hmylt : myIdx < st.nodes.length := hinv.valLt _ hvix
        have hcond : ¬ ((nodeAt st2.nodes ((idxOf? st2.index w).getD 0)).lowlink <
            (nodeAt st2.nodes myIdx).lowlink) := by
          rw [hidx2]
          simp only [Option.getD_some]
          rw [hloww, hlowv]
          omega
        rw [if_neg hcond]
        have hstk2 : ∀ u ∈ st2.stack, u.name = v ∨ DependsOn g u.name v := by
          rw [post.stackEq]
          exact hstk
        have hfuel2 : g.length ≤ st2.index.length + n := by
          rw [post.ixEq]
          simp only [List.length_append]
          omega
        obtain ⟨st3, newsB, preB, hres3, post3⟩ :=
          ih st2 v myIdx post.dinv hv hvix2 hws2 hstk2 hfuel2
        have hflat2 : flatOut st2 = flatOut st ++ newsA := flatOut_of_outEq post.outEq
        have hflat3 : flatOut st3 = flatOut st2 ++ newsB := flatOut_of_outEq post3.outEq
        refine ⟨st3, newsA ++ newsB, preB ++ preA, hres3, ?_⟩
        refine
          { stackEq := post3.stackEq.trans post.stackEq
            outEq := by
              rw [post3.outEq, post.outEq, List.map_append, List.append_assoc]
            newFresh := ?_
            ixEq := by rw [post3.ixEq, post.ixEq, List.append_assoc]
            preKeys := ?_
            preVals := ?_
            done := ?_
            dinv := post3.dinv }
        · intro s hs
          rcases List.mem_append.mp hs with hsA | hsB
          · exact post.newFresh s hsA
          · intro hmem
            exact post3.newFresh s hsB (by
              rw [post.ixEq, keys_append]
              exact List.mem_append_right _ hmem)
        · rw [keys_append, List.map_append]
          exact (post3.preKeys.append post.preKeys).trans List.perm_append_comm
        · intro p hp
          rcases List.mem_append.mp hp with hpB | hpA
          · have h1 := post3.preVals p hpB
            have h2 : st.nodes.length ≤ st2.nodes.length := by
              have e2 := post.dinv.lenEq
              have e1 := hinv.lenEq
              rw [post.ixEq] at e2
              simp only [List.length_append] at e2
              omega
            omega
          · exact post.preVals p hpA
        · intro x hx
          rcases List.mem_cons.mp hx with rfl | hx2
          · have : x ∈ (flatOut st2).map Step.name := by
              rw [hflat2, List.map_append]
              exact List.mem_append_right _ (post.vMem)
            rw [hflat3, List.map_append]
            exact List.mem_append_left _ this
          · exact post3.done x hx2
      · next i hidx =>
        split
        · next hstkT =>
          exfalso
          have hpmem : (w, i) ∈ st.index := idxOf?_mem _ _ _ hidx
          have hwstack : w ∈ stackNames st := (hinv.stackedIff _ hpmem).mp hstkT
          obtain ⟨u, hu, hun⟩ : ∃ u ∈ st.stack, u.name = w := by
            simpa [stackNames] using hwstack
          rcases hstk u hu with he | hdep
          · have hvw : v = w := by rw [← he, hun]
            exact (hacy w) (Relation.TransGen.single (hvw ▸ hedge))
          · exact (hacy v) ((Relation.TransGen.single hedge).trans (hun ▸ hdep))
        · next hstkF =>
          obtain ⟨st3, newsB, preB, hres3, post3⟩ :=
            ih st v myIdx hinv hv hvix hws2 hstk hfuel
          have hflat3 : flatOut st3 = flatOut st ++ newsB := flatOut_of_outEq post3.outEq
          refine ⟨st3, newsB, preB, hres3, ?_⟩
          refine
            { stackEq := post3.stackEq, outEq := post3.outEq,
              newFresh := post3.newFresh, ixEq := post3.ixEq,
              preKeys := post3.preKeys, preVals := post3.preVals,
              done := ?_, dinv := post3.dinv }
          intro x hx
          rcases List.mem_cons.mp hx with rfl | hx2
          · have hpmem : (x, i) ∈ st.index := idxOf?_mem _ _ _ hidx
            have hnstack : x ∉ stackNames st := fun hmem =>
              hstkF ((hinv.stackedIff _ hpmem).mpr hmem)
            have hxkeys : x ∈ keys st.index := mem_keys_of_mem hpmem
            have hxflat : x ∈ (flatOut st).map Step.name := by
              rcases List.mem_append.mp (hinv.partEq.symm.mem_iff.mp hxkeys) with h | h
              · exact h
              · exact absurd h hnstack
            rw [hflat3, List.map_append]
            exact List.mem_append_left _ hxflat
          · exact post3.done x hx2

theorem inj_snd_of_vals_nodup {ix : List (String × Nat)} (hnd : (vals ix).Nodup)
    {p q : String × Nat} (hp : p ∈ ix) (hq : q ∈ ix) (h : p.2 = q.2) : p = q := by
  induction ix with
  | nil => simp at hp
  | cons a t ih =>
    have hcons : vals (a :: t) = a.2 :: vals t := rfl
    rw [hcons] at hnd
    have hnot : a.2 ∉ vals t := (List.nodup_cons.mp hnd).1
    have hnd2 : (vals t).Nodup := (List.nodup_cons.mp hnd).2
    rcases List.mem_cons.mp hp with rfl | hp2
    · rcases List.mem_cons.mp hq with rfl | hq2
      · rfl
      · exact absurd (by simpa [vals, h] using ⟨q.1, (by simpa using hq2 : (q.1, q.2) ∈ t)⟩)
          hnot
    · rcases List.mem_cons.mp hq with rfl | hq2
      · exact absurd (by simpa [vals, ← h] using ⟨p.1, (by simpa using hp2 : (p.1, p.2) ∈ t)⟩)
          hnot
      · exact ih hnd2 hp2 hq2

theorem inj_fst_of_keys_nodup {ix : List (String × Nat)} (hnd : (keys ix).Nodup)
    {p q : String × Nat} (hp : p ∈ ix) (hq : q ∈ ix) (h : p.1 = q.1) : p = q := by
  induction ix with
  | nil => simp at hp
  | cons a t ih =>
    have hcons : keys (a :: t) = a.1 :: keys t := rfl
    rw [hcons] at hnd
    have hnot : a.1 ∉ keys t := (List.nodup_cons.mp hnd).1
    have hnd2 : (keys t).Nodup := (List.nodup_cons.mp hnd).2
    rcases List.mem_cons.mp hp with rfl | hp2
    · rcases List.mem_cons.mp hq with rfl | hq2
      · rfl
      · exact absurd (by simpa [keys, h] using ⟨q.2, (by simpa using hq2 : (q.1, q.2) ∈ t)⟩)
          hnot
    · rcases List.mem_cons.mp hq with rfl | hq2
      · exact absurd (by simpa [keys, ← h] using ⟨p.2, (by simpa using hp2 : (p.1, p.2) ∈ t)⟩)
          hnot
      · exact ih hnd2 hp2 hq2

theorem scDag (g : List Step) (hacy : Acyclic g) (hnd : (names g).Nodup)
    (hcompl : CompleteG g) : ∀ (n : Nat) (st : TarjanState) (v : String),
    DInv g st → v ∈ names g → idxOf? st.index v = none →
    (∀ u ∈ st.stack, DependsOn g u.name v) →
    g.length ≤ st.index.length + n →
    ∃ st2 newsteps pre, strongConnect g n st v = .ok st2 ∧
      ScDagPost g st v st2 newsteps pre := by
  intro n
  induction n with
  | zero =>
    intro st v hinv hv hidx hstkdep hfuel
    have hlt : (keys st.index).length < (names g).length :=
      nodup_ssubset_length hinv.ginv.1 hinv.ginv.2 v hv ((idxOf?_none_iff _ _).mp hidx)
    have h1 : (keys st.index).length = st.index.length := by simp [keys]
    have h2 : (names g).length = g.length := by simp [names]
    omega
  | succ n ih =>
    intro st v hinv hv hidx hstkdep hfuel
    have hvstep := findStep_spec g v hv
    have hvnot : v ∉ keys st.index := (idxOf?_none_iff _ _).mp hidx
    have hstacksub : ∀ u ∈ st.stack, u.name ∈ keys st.index :=
      fun u hu => (hinv.stackSteps u hu).2
    have hvnotstack : v ∉ stackNames st := by
      intro hmem
      obtain ⟨u, hu, hun⟩ : ∃ u ∈ st.stack, u.name = v := by
        simpa [stackNames] using hmem
      exact hvnot (hun ▸ hstacksub u hu)
    have hflatsub : ∀ x ∈ (flatOut st).map Step.name, x ∈ keys st.index := fun x hx =>
      hinv.partEq.mem_iff.mp (List.mem_append_left _ hx)
    have hvnotflat : v ∉ (flatOut st).map Step.name := fun hmem => hvnot (hflatsub v hmem)
    have hinv1 : DInv g ⟨st.nodes ++ [⟨st.nodes.length, true⟩],
        findStep g v :: st.stack, (v, st.nodes.length) :: st.index, st.output⟩ := by
      refine
        { ginv := ⟨List.nodup_cons.mpr ⟨hvnot, hinv.ginv.1⟩, ?_⟩
          lenEq := by simp [hinv.lenEq]
          valLt := ?_
          valsNodup := ?_
          low := ?_
          stackedIff := ?_
          stackSteps := ?_
          stackNodup := ?_
          outSingle := hinv.outSingle
          outSteps := hinv.outSteps
          partEq := ?_
          topo := hinv.topo }
      · intro k hk
        rcases List.mem_cons.mp hk with rfl | hk2
        · exact hv
        · exact hinv.ginv.2 k hk2
      · intro p hp
        rcases List.mem_cons.mp hp with rfl | hp2
        · simp
        · have := hinv.valLt p hp2
          simp only [List.length_append, List.length_cons, List.length_nil]
          omega
      · have hLnot : st.nodes.length ∉ vals st.index := by
          intro hmem
          obtain ⟨k, hk⟩ : ∃ k, (k, st.nodes.length) ∈ st.index := by
            simpa [vals] using hmem
          exact absurd (hinv.valLt _ hk) (by simp)
        exact List.nodup_cons.mpr ⟨hLnot, hinv.valsNodup⟩
      · intro p hp
        rcases List.mem_cons.mp hp with rfl | hp2
        · show (nodeAt (st.nodes ++ [{ lowlink := st.nodes.length, stacked := true }])
            st.nodes.length).lowlink = st.nodes.length
          rw [nodeAt_append_len]
        · rw [nodeAt_append_lt _ _ _ (hinv.valLt p hp2)]
          exact hinv.low p hp2
      · intro p hp
        have hsn : stackNames ⟨st.nodes ++ [⟨st.nodes.length, true⟩],
            findStep g v :: st.stack, (v, st.nodes.length) :: st.index, st.output⟩ =
            v :: stackNames st := by
          simp [stackNames, hvstep.2]
        rw [hsn]
        rcases List.mem_cons.mp hp with rfl | hp2
        · rw [nodeAt_append_len st.nodes _]
          simp
        · rw [nodeAt_append_lt _ _ _ (hinv.valLt p hp2)]
          have hne : p.1 ≠ v := fun he => hvnot (he ▸ mem_keys_of_mem hp2)
          rw [hinv.stackedIff p hp2]
          simp [hne]
      · intro u hu
        rcases List.mem_cons.mp hu with rfl | hu2
        · constructor
          · rw [hvstep.2]
          · rw [hvstep.2]
            exact List.mem_cons_self _ _
        · exact ⟨(hinv.stackSteps u hu2).1,
            List.mem_cons_of_mem _ (hinv.stackSteps u hu2).2⟩
      · have hsn : stackNames ⟨st.nodes ++ [⟨st.nodes.length, true⟩],
            findStep g v :: st.stack, (v, st.nodes.length) :: st.index, st.output⟩ =
            v :: stackNames st := by
          simp [stackNames, hvstep.2]
        rw [hsn]
        exact List.nodup_cons.mpr ⟨hvnotstack, hinv.stackNodup⟩
      · have hsn : stackNames ⟨st.nodes ++ [⟨st.nodes.length, true⟩],
            findStep g v :: st.stack, (v, st.nodes.length) :: st.index, st.output⟩ =
            v :: stackNames st := by
          simp [stackNames, hvstep.2]
        have hfl : flatOut ⟨st.nodes ++ [⟨st.nodes.length, true⟩],
            findStep g v :: st.stack, (v, st.nodes.length) :: st.index, st.output⟩ =
            flatOut st := rfl
        rw [hsn, hfl]
        show ((flatOut st).map Step.name ++ (v :: stackNames st)).Perm
          (keys ((v, st.nodes.length) :: st.index))
        have h1 : ((flatOut st).map Step.name ++ (v :: stackNames st)).Perm
            (v :: ((flatOut st).map Step.name ++ stackNames st)) :=
          List.perm_middle
        exact h1.trans (hinv.partEq.cons v)
    have hdl := dlDag g hacy hnd hcompl n (strongConnect g n)
      (fun st2 v2 => ih st2 v2) (findStep g v).deps
      ⟨st.nodes ++ [⟨st.nodes.length, true⟩],
        findStep g v :: st.stack, (v, st.nodes.length) :: st.index, st.output⟩
      v st.nodes.length hinv1 hv (List.mem_cons_self _ _) (fun x hx => hx)
      (by
        intro u hu
        rcases List.mem_cons.mp hu with rfl | hu2
        · exact Or.inl hvstep.2
        · exact Or.inr (hstkdep u hu2))
      (by
        simp only [List.length_cons]
        omega)
    obtain ⟨st2, newsA, preA, hres, post⟩ := hdl
    have hvL2 : (v, st.nodes.length) ∈ st2.index := by
      rw [post.ixEq]
      exact List.mem_append_right _ (List.mem_cons_self _ _)
    have hroot : (nodeAt st2.nodes st.nodes.length).lowlink = st.nodes.length :=
      post.dinv.low _ hvL2
    have hidxv : idxOf? st2.index v = some st.nodes.length :=
      idxOf?_of_mem _ _ _ post.dinv.ginv.1 hvL2
    have hstack2 : st2.stack = findStep g v :: st.stack := post.stackEq
    have hcol : collect st2.index st.nodes.length st2.nodes st2.stack =
        (unstackAt st2.nodes st.nodes.length, [findStep g v], st.stack) := by
      rw [hstack2]
      show collect st2.index st.nodes.length st2.nodes (findStep g v :: st.stack) = _
      unfold collect
      rw [hvstep.2, hidxv]
      simp
    have heq1 : strongConnect g (n + 1) st v =
        match depsLoop g (strongConnect g n) v st.nodes.length
          ⟨st.nodes ++ [⟨st.nodes.length, true⟩],
            findStep g v :: st.stack, (v, st.nodes.length) :: st.index, st.output⟩
          (findStep g v).deps with
        | .error e => .error e
        | .ok st3 =>
          if (nodeAt st3.nodes st.nodes.length).lowlink = st.nodes.length then
            .ok { nodes := (collect st3.index st.nodes.length st3.nodes st3.stack).1,
                  stack := (collect st3.index st.nodes.length st3.nodes st3.stack).2.2,
                  index := st3.index,
                  output := st3.output ++
                    [(collect st3.index st.nodes.length st3.nodes st3.stack).2.1] }
          else .ok st3 := rfl
    rw [hres] at heq1
    dsimp only at heq1
    rw [if_pos hroot, hcol] at heq1
    dsimp only at heq1
    refine ⟨_, newsA ++ [findStep g v], preA ++ [(v, st.nodes.length)], heq1, ?_⟩
    have hflat2 : flatOut st2 = flatOut st ++ newsA := flatOut_of_outEq post.outEq
    have hkeys1 : keys ((v, st.nodes.length) :: st.index) = v :: keys st.index := rfl
    refine
      { stackEq := rfl
        outEq := ?_
        vMem := ?_
        newFresh := ?_
        ixEq := ?_
        preKeys := ?_
        preVals := ?_
        dinv := ?_ }
    · show st2.output ++ [[findStep g v]] = _
      rw [post.outEq, List.map_append, List.append_assoc]
      rfl
    · rw [List.map_append]
      refine List.mem_append_right _ ?_
      simp [hvstep.2]
    · intro s hs
      rcases List.mem_append.mp hs with hsA | hsB
      · have := post.newFresh s hsA
        rw [hkeys1] at this
        exact fun hmem => this (List.mem_cons_of_mem _ hmem)
      · have : s = findStep g v := by simpa using hsB
        rw [this, hvstep.2]
        exact hvnot
    · show st2.index = _
      rw [post.ixEq, List.append_assoc]
      rfl
    · rw [keys_append, List.map_append]
      refine (post.preKeys.append ?_).trans (List.Perm.refl _)
      show List.Perm (keys [(v, st.nodes.length)]) ([findStep g v].map Step.name)
      rw [show [findStep g v].map Step.name = [v] by simp [hvstep.2]]
      rfl
    · intro p hp
      rcases List.mem_append.mp hp with hpA | hpB
      · have := post.preVals p hpA
        simp only [List.length_append, List.length_cons, List.length_nil] at this
        omega
      · have : p = (v, st.nodes.length) := by simpa using hpB
        rw [this]
    · -- DInv of the popped state
      have hLlt2 : st.nodes.length < st2.nodes.length := by
        have e2 := post.dinv.lenEq
        rw [post.ixEq] at e2
        simp only [List.length_append, List.length_cons] at e2
        have := hinv.lenEq
        omega
      refine
        { ginv := post.dinv.ginv
          lenEq := by
            show (unstackAt st2.nodes st.nodes.length).length = st2.index.length
            rw [length_unstackAt]
            exact post.dinv.lenEq
          valLt := by
            intro p hp
            show p.2 < (unstackAt st2.nodes st.nodes.length).length
            rw [length_unstackAt]
            exact post.dinv.valLt p hp
          valsNodup := post.dinv.valsNodup
          low := ?_
          stackedIff := ?_
          stackSteps := ?_
          stackNodup := ?_
          outSingle := ?_
          outSteps := ?_
          partEq := ?_
          topo := ?_ }
      · intro p hp
        by_cases hpl : p.2 = st.nodes.length
        · have hpeq : p = (v, st.nodes.length) :=
            inj_snd_of_vals_nodup post.dinv.valsNodup hp hvL2 hpl
          rw [hpeq]
          show (nodeAt (unstackAt st2.nodes st.nodes.length) st.nodes.length).lowlink = _
          rw [nodeAt_unstackAt_self _ _ hLlt2]
          exact hroot
        · show (nodeAt (unstackAt st2.nodes st.nodes.length) p.2).lowlink = p.2
          rw [nodeAt_unstackAt_ne _ _ _ (fun he => hpl he.symm)]
          exact post.dinv.low p hp
      · intro p hp
        have hsn3 : stackNames ⟨unstackAt st2.nodes st.nodes.length, st.stack,
            st2.index, st2.output ++ [[findStep g v]]⟩ = stackNames st := rfl
        rw [hsn3]
        by_cases hpl : p.2 = st.nodes.length
        · have hpeq : p = (v, st.nodes.length) :=
            inj_snd_of_vals_nodup post.dinv.valsNodup hp hvL2 hpl
          rw [hpeq]
          show ((nodeAt (unstackAt st2.nodes st.nodes.length) st.nodes.length).stacked = true)
            ↔ _
          rw [nodeAt_unstackAt_self _ _ hLlt2]
          simpa using hvnotstack
        · show ((nodeAt (unstackAt st2.nodes st.nodes.length) p.2).stacked = true) ↔ _
          rw [nodeAt_unstackAt_ne _ _ _ (fun he => hpl he.symm)]
          have hstk2names : stackNames st2 = v :: stackNames st := by
            rw [show stackNames st2 = st2.stack.map Step.name from rfl, hstack2]
            simp [stackNames, hvstep.2]
          rw [post.dinv.stackedIff p hp, hstk2names]
          have hne : p.1 ≠ v := by
            intro he
            have : p = (v, st.nodes.length) :=
              inj_fst_of_keys_nodup post.dinv.ginv.1 hp hvL2 he
            exact hpl (by rw [this])
          simp [hne]
      · intro u hu
        refine ⟨(hinv.stackSteps u hu).1, ?_⟩
        rw [post.ixEq, keys_append]
        exact List.mem_append_right _ (List.mem_cons_of_mem _ (hinv.stackSteps u hu).2)
      · exact hinv.stackNodup
      · intro c hc
        rcases List.mem_append.mp hc with h | h
        · exact post.dinv.outSingle c h
        · exact ⟨findStep g v, by simpa using h⟩
      · intro s hs
        have : flatOut ⟨unstackAt st2.nodes st.nodes.length, st.stack,
            st2.index, st2.output ++ [[findStep g v]]⟩ = flatOut st2 ++ [findStep g v] := by
          simp [flatOut]
        rw [this] at hs
        rcases List.mem_append.mp hs with h | h
        · exact post.dinv.outSteps s h
        · have hsv : s = findStep g v := by simpa using h
          subst hsv
          refine ⟨?_, ?_⟩
          · rw [hvstep.2]
          · rw [hvstep.2]
            exact hv
      · have hfl : flatOut ⟨unstackAt st2.nodes st.nodes.length, st.stack,
            st2.index, st2.output ++ [[findStep g v]]⟩ = flatOut st2 ++ [findStep g v] := by
          simp [flatOut]
        have hsn3 : stackNames ⟨unstackAt st2.nodes st.nodes.length, st.stack,
            st2.index, st2.output ++ [[findStep g v]]⟩ = stackNames st := rfl
        have hstk2names : stackNames st2 = v :: stackNames st := by
          rw [show stackNames st2 = st2.stack.map Step.name from rfl, hstack2]
          simp [stackNames, hvstep.2]
        rw [hfl, hsn3, List.map_append]
        have hL : (flatOut st2).map Step.name ++ [findStep g v].map Step.name ++
            stackNames st = (flatOut st2).map Step.name ++ stackNames st2 := by
          rw [List.append_assoc, hstk2names]
          simp [hvstep.2]
        rw [hL]
        exact post.dinv.partEq
      · have hfl : flatOut ⟨unstackAt st2.nodes st.nodes.length, st.stack,
            st2.index, st2.output ++ [[findStep g v]]⟩ = flatOut st2 ++ [findStep g v] := by
          simp [flatOut]
        show topoOk [] (flatOut _) = true
        rw [hfl, topoOk_append]
        rw [Bool.and_eq_true]
        refine ⟨post.dinv.topo, ?_⟩
        show topoOk (seenAfter [] (flatOut st2)) [findStep g v] = true
        simp only [topoOk, Bool.and_eq_true, List.all_eq_true]
        refine ⟨?_, trivial⟩
        intro d hd
        have hdone := post.done d hd
        simp only [List.elem_eq_mem, decide_eq_true_eq, seenAfter_mem]
        exact Or.inr hdone

theorem ntLoopDag (g : List Step) (hacy : Acyclic g) (hnd : (names g).Nodup)
    (hcompl : CompleteG g) : ∀ (os : List String) (st : TarjanState),
    DInv g st → st.stack = [] → (∀ o ∈ os, o ∈ names g) →
    ∃ st2, newTarjanLoop g os st = .ok st2 ∧ st2.stack = [] ∧ DInv g st2 ∧
      (∃ news : List Step, st2.output = st.output ++ news.map (fun s => [s])) ∧
      (∀ o ∈ os, o ∈ keys st2.index) ∧ (∃ pre, st2.index = pre ++ st.index) := by
  intro os
  induction os with
  | nil =>
    intro st hinv hstk hos
    exact ⟨st, rfl, hstk, hinv, ⟨[], by simp⟩, by simp, ⟨[], rfl⟩⟩
  | cons v vs ih =>
    intro st hinv hstk hos
    show ∃ st2, newTarjanLoop g (v :: vs) st = .ok st2 ∧ _
    unfold newTarjanLoop
    split
    · next hv =>
      obtain ⟨st2, hloop, hstk2, hinv2, ⟨news, hout⟩, hmem, ⟨pre, hpre⟩⟩ :=
        ih st hinv hstk (fun o ho => hos o (List.mem_cons_of_mem v ho))
      refine ⟨st2, hloop, hstk2, hinv2, ⟨news, hout⟩, ?_, ⟨pre, hpre⟩⟩
      intro o ho
      rcases List.mem_cons.mp ho with rfl | ho2
      · rw [hpre, keys_append]
        exact List.mem_append_right _ ((idxOf?_isSome_iff _ _).mp hv)
      · exact hmem o ho2
    · next hv =>
      have hidx : idxOf? st.index v = none := by
        rcases h : idxOf? st.index v with _ | i
        · rfl
        · exact absurd (by simp [h]) hv
      obtain ⟨st2, newsA, preA, hres, post⟩ :=
        scDag g hacy hnd hcompl (g.length + 1) st v hinv
          (hos v (List.mem_cons_self v vs)) hidx
          (by rw [hstk]; intro u hu; exact absurd hu (List.not_mem_nil u))
          (by omega)
      rw [hres]
      dsimp only
      obtain ⟨st3, hloop, hstk3, hinv3, ⟨newsB, hout3⟩, hmem3, ⟨preB, hpre3⟩⟩ :=
        ih st2 post.dinv (post.stackEq.trans hstk)
          (fun o ho => hos o (List.mem_cons_of_mem v ho))
      refine ⟨st3, hloop, hstk3, hinv3,
        ⟨newsA ++ newsB, ?_⟩, ?_, ⟨preB ++ preA, ?_⟩⟩
      · rw [hout3, post.outEq, List.map_append, List.append_assoc]
      · intro o ho
        rcases List.mem_cons.mp ho with rfl | ho2
        · have h1 : o ∈ keys preA := post.preKeys.mem_iff.mpr post.vMem
          rw [hpre3, keys_append, post.ixEq, keys_append]
          exact List.mem_append_right _ (List.mem_append_left _ h1)
        · exact hmem3 o ho2
      · rw [hpre3, post.ixEq, List.append_assoc]

/-- the invariant holds in the initial state. -/
theorem dinv_init (g : List Step) : DInv g initState :=
  { ginv := ⟨List.nodup_nil, by simp [initState, keys]⟩
    lenEq := rfl
    valLt := by simp [initState]
    valsNodup := List.nodup_nil
    low := by simp [initState]
    stackedIff := by simp [initState]
    stackSteps := by simp [initState]
    stackNodup := List.nodup_nil
    outSingle := by simp [initState]
    outSteps := by simp [initState, flatOut]
    partEq := by simp [initState, flatOut, stackNames, keys]
    topo := rfl }

/-- over an acyclic complete mapping with distinct names, `NewTarjan` under
any full iteration order succeeds and produces singleton components of all
the steps, topologically sorted (shared lemma). -/
theorem newTarjanDag (g : List Step) (order : List String) (hacy : Acyclic g)
    (hnd : (names g).Nodup) (hcompl : CompleteG g)
    (hord : ∀ o ∈ order, o ∈ names g) (hcov : ∀ x ∈ names g, x ∈ order) :
    ∃ flat : List Step, NewTarjan g order = .ok (flat.map (fun s => [s])) ∧
      topoOk [] flat = true ∧ (flat.map Step.name).Perm (names g) ∧
      (∀ s ∈ flat, s = findStep g s.name) ∧ (flat.map Step.name).Nodup := by
  obtain ⟨st2, hloop, hstk2, hinv2, ⟨news, hout⟩, hmem, ⟨pre, hpre⟩⟩ :=
    ntLoopDag g hacy hnd hcompl order initState (dinv_init g) rfl hord
  have hflat : flatOut st2 = news := by
    rw [flatOut, hout]
    show ([] ++ news.map (fun s => [s])).flatten = news
    rw [List.nil_append, flatten_singletons]
  have hkeysperm : ((flatOut st2).map Step.name).Perm (keys st2.index) := by
    have h := hinv2.partEq
    rw [show stackNames st2 = st2.stack.map Step.name from rfl, hstk2] at h
    simpa using h
  have hnamesperm : (news.map Step.name).Perm (names g) := by
    rw [← hflat]
    refine (hkeysperm.trans ?_)
    have hnodupk : (keys st2.index).Nodup := hinv2.ginv.1
    have hsub1 : keys st2.index ⊆ names g := fun x hx => hinv2.ginv.2 x hx
    have hsub2 : names g ⊆ keys st2.index := fun x hx => hmem x (hcov x hx)
    exact (hnodupk.subperm hsub1).antisymm (hnd.subperm hsub2)
  refine ⟨news, ?_, ?_, hnamesperm, ?_, ?_⟩
  · rw [newTarjan_eq, hloop]
    show Except.ok st2.output = _
    rw [hout]
    rfl
  · have := hinv2.topo
    rw [hflat] at this
    exact this
  · intro s hs
    have := hinv2.outSteps s (by rw [hflat]; exact hs)
    exact this.1
  · exact hnamesperm.nodup_iff.mpr hnd

/-! ## analysis of `Parse` on singleton-component output -/


theorem getD_append_len {α : Type} (l : List α) (x d : α) :
    (l ++ [x]).getD l.length d = x := by
  induction l with
  | nil => rfl
  | cons a t ih => simp [ih]

theorem set_append_len {α : Type} (l : List α) (x y : α) :
    (l ++ [x]).set l.length y = l ++ [y] := by
  induction l with
  | nil => rfl
  | cons a t ih => simp [ih]

theorem mem_addReq (reqs : List String) (r d : String) :
    d ∈ addReq reqs r ↔ d ∈ reqs ∨ d = r := by
  unfold addReq
  split
  · next h =>
    constructor
    · exact Or.inl
    · intro hd
      rcases hd with hd | rfl
      · exact hd
      · exact h
  · next h =>
    simp [List.mem_cons]
    tauto

theorem mem_foldl_addReq (l : List String) (reqs : List String) (d : String) :
    d ∈ l.foldl addReq reqs ↔ d ∈ reqs ∨ d ∈ l := by
  induction l generalizing reqs with
  | nil => simp
  | cons a t ih =>
    show d ∈ t.foldl addReq (addReq reqs a) ↔ _
    rw [ih, mem_addReq]
    simp [List.mem_cons]
    tauto

theorem nodup_split_names {X B : List String} {a : String}
    (hnd : (X ++ a :: B).Nodup) :
    a ∉ X ∧ a ∉ B ∧ ∀ x ∈ X, x ∉ B := by
  have h1 := List.nodup_append.mp hnd
  have h2 := List.nodup_cons.mp h1.2.1
  exact ⟨fun hx => h1.2.2 hx (List.mem_cons_self _ _), h2.1,
    fun x hx hb => h1.2.2 hx (List.mem_cons_of_mem _ hb)⟩

theorem parseLoopDag (flat : List Step) (hnodup : (flat.map Step.name).Nodup)
    (htopo : topoOk [] flat = true) :
    ∀ (RA B : List Step) (reqs : List String) (result : List (List Step)) (idx : Nat),
    flat = RA.reverse ++ B →
    PInv B reqs result idx →
    ∃ R, parseLoop (RA.map (fun s => [s])) reqs result idx = .ok R ∧
      flat = (R.reverse).flatten ∧ (∀ G ∈ R, GroupClosed G ∧ G ≠ []) := by
  intro RA
  induction RA with
  | nil =>
    intro B reqs result idx hsplit hinv
    simp only [List.reverse_nil, List.nil_append] at hsplit
    subst hsplit
    rcases hinv with ⟨hreqs, hidx, hB, hclosed⟩ | ⟨closed, cur, hres, hidx, hcur, hB, hreqs, hclosed, hchar⟩
    · exact ⟨result, rfl, hB, hclosed⟩
    · exfalso
      obtain ⟨d, hd⟩ := List.exists_mem_of_ne_nil reqs hreqs
      obtain ⟨⟨t, ht, htd⟩, hnB⟩ := (hchar d).mp hd
      have htB : t ∈ flat := by
        rw [hB]
        exact List.mem_append_left _ ht
      obtain ⟨X, Y, hXY⟩ := List.append_of_mem htB
      rcases topoOk_split flat [] X t Y htopo hXY d htd with h | h
      · simp at h
      · refine hnB ?_
        rw [hXY, List.map_append]
        exact List.mem_append_left _ (by simpa [names] using h)
  | cons s RA2 ih =>
    intro B reqs result idx hsplit hinv
    have hsplit2 : flat = RA2.reverse ++ (s :: B) := by
      rw [hsplit]
      simp
    -- name disjointness facts at this split point
    have hnd2 : ((RA2.reverse.map Step.name) ++ s.name :: B.map Step.name).Nodup := by
      have : flat.map Step.name =
          (RA2.reverse.map Step.name) ++ s.name :: B.map Step.name := by
        rw [hsplit2]
        simp
      rw [this] at hnodup
      exact hnodup
    obtain ⟨hsnX, hsnB, hXB⟩ := nodup_split_names hnd2
    have hdepsX : ∀ d ∈ s.deps, d ∈ RA2.reverse.map Step.name := by
      intro d hd
      rcases topoOk_split flat [] RA2.reverse s B htopo hsplit2 d hd with h | h
      · simp at h
      · simpa [names] using h
    have hsns : s.name ∉ s.deps := fun hmem => hsnX (hdepsX s.name hmem)
    have hdepsB : ∀ d ∈ s.deps, d ∉ B.map Step.name := fun d hd => hXB d (hdepsX d hd)
    -- one iteration of the loop
    show ∃ R, parseLoop ([s] :: RA2.map (fun t => [t])) reqs result idx = .ok R ∧ _
    unfold parseLoop
    rw [if_neg (by simp)]
    dsimp only [List.headD]
    rcases hinv with ⟨hreqs, hidx, hB, hclosed⟩ | ⟨closed, cur, hres, hidx, hcur, hB, hreqs, hclosed, hchar⟩
    · -- previous state: all groups closed
      subst hreqs
      have hmem2 : ∀ d, d ∈ (s.deps.foldl addReq []).filter (fun r => r ≠ s.name) ↔
          d ∈ s.deps := by
        intro d
        rw [List.mem_filter, mem_foldl_addReq]
        simp only [List.not_mem_nil, false_or, decide_eq_true_eq]
        constructor
        · exact fun h => h.1
        · exact fun h => ⟨h, fun he => hsns (he ▸ h)⟩
      have hres1 : (if result.length ≤ idx then result ++ [[]] else result) = result ++ [[]] := by
        rw [if_pos (by omega)]
      rw [hres1]
      have hgetD : (result ++ [[]]).getD idx [] = ([] : List Step) := by
        rw [hidx]
        exact getD_append_len result [] []
      have hset : (result ++ [[]]).set idx [s] = result ++ [[s]] := by
        rw [hidx]
        exact set_append_len result [] [s]
      rw [hgetD, hset]
      by_cases hempty : ((s.deps.foldl addReq []).filter (fun r => r ≠ s.name)).isEmpty
      · rw [if_pos hempty]
        have hdepsnil : ∀ d, d ∉ s.deps := by
          intro d hd
          have : d ∈ (s.deps.foldl addReq []).filter (fun r => r ≠ s.name) :=
            (hmem2 d).mpr hd
          rw [List.isEmpty_iff] at hempty
          rw [hempty] at this
          exact List.not_mem_nil d this
        refine ih (s :: B) _ _ _ hsplit2 (Or.inl ⟨List.isEmpty_iff.mp hempty, ?_, ?_, ?_⟩)
        · simp [hidx]
        · rw [hB]
          simp
        · intro G hG
          rcases List.mem_append.mp hG with h | h
          · exact hclosed G h
          · have : G = [s] := by simpa using h
            exact this ▸ ⟨fun t ht d hd => absurd hd (by
              have : t = s := by simpa using ht
              exact this ▸ hdepsnil d), by simp⟩
      · rw [if_neg hempty]
        refine ih (s :: B) _ _ _ hsplit2 (Or.inr ⟨result, [s], rfl, hidx, by simp, ?_, ?_, hclosed, ?_⟩)
        · rw [hB]
          simp
        · intro he
          rw [he] at hempty
          exact hempty rfl
        · intro d
          rw [hmem2 d]
          constructor
          · intro hd
            refine ⟨⟨s, by simp, hd⟩, ?_⟩
            simp only [List.map_cons, List.mem_cons]
            rintro (he | hmem)
            · exact hsns (he ▸ hd)
            · exact hdepsB d hd hmem
          · rintro ⟨⟨t, ht, htd⟩, _⟩
            have : t = s := by simpa using ht
            exact this ▸ htd
    · -- previous state: open group at the cursor
      subst hres
      have hlen : ¬ (closed ++ [cur]).length ≤ idx := by
        simp only [List.length_append, List.length_cons, List.length_nil]
        omega
      rw [if_neg hlen]
      have hgetD : (closed ++ [cur]).getD idx [] = cur := by
        rw [hidx]
        exact getD_append_len closed cur []
      have hset : (closed ++ [cur]).set idx (s :: cur) = closed ++ [s :: cur] := by
        rw [hidx]
        exact set_append_len closed cur (s :: cur)
      rw [hgetD, hset]
      have hmem2 : ∀ d, d ∈ (s.deps.foldl addReq reqs).filter (fun r => r ≠ s.name) ↔
          ((∃ t ∈ s :: cur, d ∈ t.deps) ∧ d ∉ (s :: B).map Step.name) := by
        intro d
        rw [List.mem_filter, mem_foldl_addReq]
        simp only [decide_eq_true_eq]
        constructor
        · rintro ⟨hor, hne⟩
          rcases hor with hr | hdep
          · obtain ⟨⟨t, ht, htd⟩, hnB⟩ := (hchar d).mp hr
            refine ⟨⟨t, List.mem_cons_of_mem _ ht, htd⟩, ?_⟩
            simp only [List.map_cons, List.mem_cons]
            rintro (he | hmem)
            · exact hne he
            · exact hnB hmem
          · refine ⟨⟨s, List.mem_cons_self _ _, hdep⟩, ?_⟩
            simp only [List.map_cons, List.mem_cons]
            rintro (he | hmem)
            · exact hne he
            · exact hdepsB d hdep hmem
        · rintro ⟨⟨t, ht, htd⟩, hnB⟩
          simp only [List.map_cons, List.mem_cons] at hnB
          push_neg at hnB
          rcases List.mem_cons.mp ht with rfl | ht2
          · exact ⟨Or.inr htd, hnB.1⟩
          · refine ⟨Or.inl ((hchar d).mpr ⟨⟨t, ht2, htd⟩, hnB.2⟩), hnB.1⟩
      by_cases hempty : ((s.deps.foldl addReq reqs).filter (fun r => r ≠ s.name)).isEmpty
      · rw [if_pos hempty]
        -- the group s :: cur closes now; prove it dependency-closed
        have hnone : ∀ d, ¬ ((∃ t ∈ s :: cur, d ∈ t.deps) ∧ d ∉ (s :: B).map Step.name) := by
          intro d hd
          have : d ∈ (s.deps.foldl addReq reqs).filter (fun r => r ≠ s.name) :=
            (hmem2 d).mpr hd
          rw [List.isEmpty_iff] at hempty
          rw [hempty] at this
          exact List.not_mem_nil d this
        have hclosure : GroupClosed (s :: cur) := by
          intro t ht d hd
          -- d is a name of the processed part
          have hdB : d ∈ (s :: B).map Step.name := by
            by_contra hnB
            exact hnone d ⟨⟨t, ht, hd⟩, hnB⟩
          -- d is a name at or before t in flat, hence not in the closed groups
          rcases List.mem_cons.mp ht with rfl | ht2
          · exact absurd (hdepsX d hd) (fun h => by
              simp only [List.map_cons, List.mem_cons] at hdB
              rcases hdB with he | hmem
              · exact hsnX (he ▸ h)
              · exact hXB d h hmem)
          · -- t is inside cur; split cur around t
            obtain ⟨c1, c2, hc⟩ := List.append_of_mem ht2
            have hflat2 : flat = (RA2.reverse ++ s :: c1) ++ t :: (c2 ++ (closed.reverse).flatten) := by
              rw [hsplit2, hB, hc]
              simp
            have hdpre : d ∈ (RA2.reverse ++ s :: c1).map Step.name := by
              rcases topoOk_split flat [] _ t _ htopo hflat2 d hd with h | h
              · simp at h
              · simpa [names] using h
            rw [List.map_append] at hdpre
            rcases List.mem_append.mp hdpre with h | h
            · -- impossible: d would be both before and after the split point
              simp only [List.map_cons, List.mem_cons] at hdB
              rcases hdB with he | hmem
              · exact absurd (he ▸ h) hsnX
              · exact absurd hmem (hXB d h)
            · -- d is s.name or inside c1 ⊆ cur
              simp only [List.map_cons, List.mem_cons] at h
              rcases h with he | hmem
              · exact he ▸ (by simp)
              · have : d ∈ cur.map Step.name := by
                  rw [hc, List.map_append]
                  exact List.mem_append_left _ hmem
                simp only [List.map_cons, List.mem_cons]
                exact Or.inr this
        refine ih (s :: B) _ _ _ hsplit2 (Or.inl ⟨List.isEmpty_iff.mp hempty, ?_, ?_, ?_⟩)
        · simp [hidx]
        · rw [hB]
          simp
        · intro G hG
          rcases List.mem_append.mp hG with h | h
          · exact hclosed G h
          · have : G = s :: cur := by simpa using h
            exact this ▸ ⟨hclosure, by simp⟩
      · rw [if_neg hempty]
        refine ih (s :: B) _ _ _ hsplit2
          (Or.inr ⟨closed, s :: cur, rfl, hidx, by simp, ?_, ?_, hclosed, hmem2⟩)
        · rw [hB]
          simp
        · intro he
          rw [he] at hempty
          exact hempty rfl

/-- `Parse` on a topologically sorted singleton-component output succeeds and
partitions the steps into contiguous, dependency-closed, non-empty groups
(the concatenation of the groups in reverse order is the input order). -/
theorem parseDag (flat : List Step) (hnodup : (flat.map Step.name).Nodup)
    (htopo : topoOk [] flat = true) :
    ∃ R, Parse (flat.map (fun s => [s])) = .ok R ∧
      flat = (R.reverse).flatten ∧ (∀ G ∈ R, GroupClosed G ∧ G ≠ []) := by
  have hrev : (flat.map (fun s => [s])).reverse = flat.reverse.map (fun s => [s]) := by
    rw [List.map_reverse]
  unfold Parse
  rw [hrev]
  exact parseLoopDag flat hnodup htopo flat.reverse [] [] [] 0 (by simp)
    (Or.inl ⟨rfl, rfl, rfl, by simp⟩)

/-! ## combined characterization of the full resolution over a DAG -/

theorem resolve_ok_inv (g : List Step) (order : List String)
    (R : List (List Step)) (hok : ResolvePipeline g order = .ok R) :
    ∃ out, NewTarjan g order = .ok out ∧ Parse out = .ok R := by
  unfold ResolvePipeline at hok
  cases hnt : NewTarjan g order with
  | error e =>
    rw [hnt] at hok
    exact Except.noConfusion hok
  | ok out =>
    rw [hnt] at hok
    exact ⟨out, rfl, hok⟩

/-- the full characterization of `ResolvePipeline` over an acyclic complete
mapping (shared lemma): success, the groups are non-empty, dependency-closed,
contiguous segments of a topological enumeration of all the steps. -/
theorem resolveDag (g : List Step) (order : List String) (hacy : Acyclic g)
    (hnd : (names g).Nodup) (hcompl : CompleteG g)
    (hord : ∀ o ∈ order, o ∈ names g) (hcov : ∀ x ∈ names g, x ∈ order) :
    ∃ R flat, ResolvePipeline g order = .ok R ∧
      flat = (R.reverse).flatten ∧
      topoOk [] flat = true ∧ ((flat.map Step.name).Perm (names g)) ∧
      (∀ s ∈ flat, s = findStep g s.name) ∧ (flat.map Step.name).Nodup ∧
      (∀ G ∈ R, GroupClosed G ∧ G ≠ []) := by
  obtain ⟨flat, hnt, htopo, hperm, hgen, hnodupf⟩ :=
    newTarjanDag g order hacy hnd hcompl hord hcov
  obtain ⟨R, hparse, hflatR, hclosed⟩ := parseDag flat hnodupf htopo
  refine ⟨R, flat, ?_, hflatR, htopo, hperm, hgen, hnodupf, hclosed⟩
  unfold ResolvePipeline
  rw [hnt]
  exact hparse

theorem flatten_reverse_perm (l : List (List Step)) :
    ((l.reverse).flatten).Perm (l.flatten) := by
  induction l with
  | nil => rfl
  | cons G t ih =>
    rw [List.reverse_cons, List.flatten_append]
    have h1 : ((t.reverse).flatten ++ [G].flatten).Perm (t.flatten ++ [G].flatten) :=
      ih.append_right _
    have h2 : t.flatten ++ [G].flatten = t.flatten ++ G := by simp
    have h3 : (t.flatten ++ G).Perm (G ++ t.flatten) := List.perm_append_comm
    have h4 : (G :: t).flatten = G ++ t.flatten := rfl
    rw [h4]
    exact (h2 ▸ h1).trans h3

theorem groups_disjoint : ∀ (l : List (List Step)),
    ((l.flatten.map Step.name).Nodup) →
    ∀ i j : Fin l.length, (i : Nat) < (j : Nat) → ∀ x,
      x ∈ ((l.get i).map Step.name) → x ∈ ((l.get j).map Step.name) → False := by
  intro l
  induction l with
  | nil =>
    intro _ i
    exact absurd i.isLt (by simp)
  | cons G t ih =>
    intro hnd i j hij x hxi hxj
    have hnd2 : ((G.map Step.name) ++ (t.flatten.map Step.name)).Nodup := by
      have : (G :: t).flatten = G ++ t.flatten := rfl
      rw [this, List.map_append] at hnd
      exact hnd
    have hdisj := (List.nodup_append.mp hnd2).2.2
    rcases i with ⟨iv, hiv⟩
    rcases j with ⟨jv, hjv⟩
    have hij2 : iv < jv := hij
    cases iv with
    | zero =>
      cases jv with
      | zero => exact absurd hij2 (by omega)
      | succ jv2 =>
        have hjv2 : jv2 < t.length := by
          have := hjv
          simp only [List.length_cons] at this
          omega
        have hxi2 : x ∈ G.map Step.name := hxi
        have hxj2 : x ∈ (t.get ⟨jv2, hjv2⟩).map Step.name := hxj
        obtain ⟨s, hs, hsn⟩ := List.mem_map.mp hxj2
        have hsflat : s ∈ t.flatten :=
          List.mem_flatten.mpr ⟨t.get ⟨jv2, hjv2⟩, List.get_mem t _ _, hs⟩
        exact hdisj hxi2 (List.mem_map.mpr ⟨s, hsflat, hsn⟩)
    | succ iv2 =>
      cases jv with
      | zero => exact absurd hij2 (by omega)
      | succ jv2 =>
        have hiv2 : iv2 < t.length := by
          have := hiv
          simp only [List.length_cons] at this
          omega
        have hjv2 : jv2 < t.length := by
          have := hjv
          simp only [List.length_cons] at this
          omega
        exact ih (List.nodup_append.mp hnd2).2.1
          ⟨iv2, hiv2⟩ ⟨jv2, hjv2⟩ (by exact Nat.lt_of_succ_lt_succ hij2)
          x hxi hxj

theorem group_topo_split (flat : List Step) (R : List (List Step))
    (hflatR : flat = (R.reverse).flatten)
    (hnodupf : (flat.map Step.name).Nodup) (htopo : topoOk [] flat = true)
    (hclosed : ∀ G ∈ R, GroupClosed G ∧ G ≠ []) :
    ∀ G ∈ R, ∀ X t Y, G = X ++ t :: Y → ∀ d ∈ t.deps, d ∈ X.map Step.name := by
  intro G hG X t Y hGXY d hd
  obtain ⟨P, Q, hPQ⟩ := List.append_of_mem (List.mem_reverse.mpr hG)
  have hflat2 : flat = ((P.flatten ++ X) ++ t :: (Y ++ Q.flatten)) := by
    rw [hflatR, hPQ]
    show (P ++ G :: Q).flatten = _
    rw [List.flatten_append, hGXY]
    simp
  have hdpre : d ∈ (P.flatten ++ X).map Step.name := by
    rcases topoOk_split flat [] _ t _ htopo hflat2 d hd with h | h
    · simp at h
    · simpa [names] using h
  have hnd2 : (((P.flatten ++ X).map Step.name) ++
      t.name :: ((Y ++ Q.flatten).map Step.name)).Nodup := by
    have : flat.map Step.name = ((P.flatten ++ X).map Step.name) ++
        t.name :: ((Y ++ Q.flatten).map Step.name) := by
      rw [hflat2]
      simp
    rw [this] at hnodupf
    exact hnodupf
  obtain ⟨htn, _, hdisj⟩ := nodup_split_names hnd2
  have hdG : d ∈ G.map Step.name :=
    (hclosed G hG).1 t (by rw [hGXY]; exact List.mem_append_right _ (List.mem_cons_self _ _)) d hd
  rw [hGXY] at hdG
  simp only [List.map_append, List.map_cons, List.mem_append, List.mem_cons] at hdG
  rcases hdG with h | h | h
  · exact h
  · exact absurd (h ▸ hdpre) htn
  · exact absurd (by
      rw [List.map_append]
      exact List.mem_append_left _ h) (hdisj d hdpre)

/-- one dependency edge never leaves a group (shared lemma). -/
theorem edge_closed (g : List Step) (hnd : (names g).Nodup)
    (R : List (List Step)) (flat : List Step) (hflatR : flat = (R.reverse).flatten)
    (hgen : ∀ s ∈ flat, s = findStep g s.name)
    (hclosed : ∀ G ∈ R, GroupClosed G ∧ G ≠ [])
    (x y : String) (he : Edge g x y) (G : List Step) (hG : G ∈ R)
    (hx : x ∈ G.map Step.name) : y ∈ G.map Step.name := by
  obtain ⟨s, hs, hsn, hy⟩ := he
  obtain ⟨t, ht, htn⟩ := List.mem_map.mp hx
  have htflat : t ∈ flat := by
    rw [hflatR]
    exact List.mem_flatten.mpr ⟨G, List.mem_reverse.mpr hG, ht⟩
  have hts : t = s := by
    have h1 := hgen t htflat
    have h2 := findStep_eq_of_mem g hnd s hs
    rw [htn] at h1
    rw [hsn] at h2
    rw [h1, h2]
  exact (hclosed G hG).1 t ht y (hts ▸ hy)

/-- transitive dependencies never leave a group (shared lemma). -/
theorem depends_closed (g : List Step) (hnd : (names g).Nodup)
    (R : List (List Step)) (flat : List Step) (hflatR : flat = (R.reverse).flatten)
    (hgen : ∀ s ∈ flat, s = findStep g s.name)
    (hclosed : ∀ G ∈ R, GroupClosed G ∧ G ≠ [])
    (x y : String) (hdep : DependsOn g x y) (G : List Step) (hG : G ∈ R)
    (hx : x ∈ G.map Step.name) : y ∈ G.map Step.name := by
  induction hdep with
  | single he => exact edge_closed g hnd R flat hflatR hgen hclosed _ _ he G hG hx
  | tail hab he ih =>
    exact edge_closed g hnd R flat hflatR hgen hclosed _ _ he G hG ih

/-! ## Claim C1 — groups are topologically ordered, no forward dependencies -/

/-- Claim C1: for every acyclic step mapping (distinct names, any full
iteration order of the map), every Pipeline Group produced by
`NewTarjan`-then-`Parse` lists each step after all the steps it depends on
(every dependency of a group member occurs earlier in the same group), and no
step of any group depends, directly or transitively, on a step of a later
group. -/
theorem parse_groups_topologically_ordered (g : List Step) (order : List String)
    (R : List (List Step)) (hacy : Acyclic g) (hnd : (names g).Nodup)
    (hperm : order.Perm (names g)) (hok : ResolvePipeline g order = .ok R) :
    (∀ G ∈ R, ∀ X t Y, G = X ++ t :: Y → ∀ d ∈ t.deps, d ∈ X.map Step.name) ∧
    (∀ i j : Fin R.length, (i : Nat) < (j : Nat) → ∀ u ∈ R.get i, ∀ w ∈ R.get j,
      ¬ DependsOn g u.name w.name) := by
  obtain ⟨out, hnt, hparse⟩ := resolve_ok_inv g order R hok
  have hcompl : CompleteG g :=
    newTarjan_ok_complete g order out hnd (fun x hx => hperm.mem_iff.mpr hx)
      (fun o ho => hperm.mem_iff.mp ho) hnt
  obtain ⟨R2, flat, hok2, hflatR, htopo, hpermf, hgen, hnodupf, hclosed⟩ :=
    resolveDag g order hacy hnd hcompl (fun o ho => hperm.mem_iff.mp ho)
      (fun x hx => hperm.mem_iff.mpr hx)
  have hR : R2 = R := by
    rw [hok] at hok2
    exact (Except.ok.inj hok2).symm
  subst hR
  constructor
  · exact group_topo_split flat R2 hflatR hnodupf htopo hclosed
  · intro i j hij u hu w hw hdep
    have hwu : w.name ∈ (R2.get i).map Step.name :=
      depends_closed g hnd R2 flat hflatR hgen hclosed u.name w.name hdep
        (R2.get i) (List.get_mem R2 i.1 i.2) (List.mem_map.mpr ⟨u, hu, rfl⟩)
    have hww : w.name ∈ (R2.get j).map Step.name := List.mem_map.mpr ⟨w, hw, rfl⟩
    have hndR : ((R2.flatten.map Step.name)).Nodup := by
      have hp : ((R2.reverse.flatten).map Step.name).Perm (R2.flatten.map Step.name) :=
        (flatten_reverse_perm R2).map Step.name
      exact hp.nodup_iff.mp (hflatR ▸ hnodupf)
    exact groups_disjoint R2 hndR i j hij w.name hwu hww


/-- Claim C1 witness: the topological-order theorem applied to the concrete
chain mapping. -/
theorem parse_groups_topologically_ordered_witness :
    (∀ G ∈ [[c1A, c1B, c1C]], ∀ X t Y, G = X ++ t :: Y →
      ∀ d ∈ t.deps, d ∈ X.map Step.name) ∧
    (∀ i j : Fin ([[c1A, c1B, c1C]] : List (List Step)).length,
      (i : Nat) < (j : Nat) →
      ∀ u ∈ [[c1A, c1B, c1C]].get i, ∀ w ∈ [[c1A, c1B, c1C]].get j,
      ¬ DependsOn c1g u.name w.name) :=
  parse_groups_topologically_ordered c1g ["A", "B", "C"] [[c1A, c1B, c1C]]
    (acyclic_of_topoOk c1g c1g (fun s hs => hs) (by decide) (by decide))
    (by decide) (by decide) (by rfl)

/-- every name of the mapping lies in some produced group (shared lemma). -/
theorem group_coverage (g : List Step) (R : List (List Step)) (flat : List Step)
    (hflatR : flat = (R.reverse).flatten)
    (hpermf : (flat.map Step.name).Perm (names g)) :
    ∀ x ∈ names g, ∃ G ∈ R, x ∈ G.map Step.name := by
  intro x hx
  have hxf : x ∈ flat.map Step.name := hpermf.mem_iff.mpr hx
  obtain ⟨s, hs, hsn⟩ := List.mem_map.mp hxf
  rw [hflatR] at hs
  obtain ⟨G, hG, hsG⟩ := List.mem_flatten.mp hs
  exact ⟨G, List.mem_reverse.mp hG, List.mem_map.mpr ⟨s, hsG, hsn⟩⟩

/-- a name lies in at most one produced group (shared lemma). -/
theorem group_unique (g : List Step) (R : List (List Step)) (flat : List Step)
    (hflatR : flat = (R.reverse).flatten)
    (hnodupf : (flat.map Step.name).Nodup) :
    ∀ (x : String) (G G2 : List Step), G ∈ R → G2 ∈ R →
      x ∈ G.map Step.name → x ∈ G2.map Step.name → G = G2 := by
  intro x G G2 hG hG2 hx hx2
  have hndR : ((R.flatten.map Step.name)).Nodup := by
    have hp : ((R.reverse.flatten).map Step.name).Perm (R.flatten.map Step.name) :=
      (flatten_reverse_perm R).map Step.name
    exact hp.nodup_iff.mp (hflatR ▸ hnodupf)
  obtain ⟨i, hi⟩ := List.mem_iff_get.mp hG
  obtain ⟨j, hj⟩ := List.mem_iff_get.mp hG2
  by_cases hij : (i : Nat) = (j : Nat)
  · rw [← hi, ← hj]
    congr 1
    exact Fin.ext hij
  · rcases Nat.lt_or_ge (i : Nat) (j : Nat) with h | h
    · exact (groups_disjoint R hndR i j h x (by rw [hi]; exact hx)
        (by rw [hj]; exact hx2)).elim
    · have hji : (j : Nat) < (i : Nat) := by omega
      exact (groups_disjoint R hndR j i hji x (by rw [hj]; exact hx2)
        (by rw [hi]; exact hx)).elim

/-! ## Claim C2 (amended) — dependency-connected steps share a group -/

/-- Claim C2 (amended): for every acyclic step mapping and every iteration
order, any two steps connected by a dependency chain — in particular two
steps whose only connection is being dependencies of a common downstream
step — are placed by `Parse` in the same Pipeline Group.  (The converse
direction of the original claim is refuted by
the counterexample: unrelated steps may share a group under unfavourable
iteration orders.) -/
theorem connected_steps_share_group (g : List Step) (order : List String)
    (R : List (List Step)) (u w : String)
    (hacy : Acyclic g) (hnd : (names g).Nodup) (hperm : order.Perm (names g))
    (hok : ResolvePipeline g order = .ok R)
    (hu : u ∈ names g) (hconn : WeakConn g u w) :
    ∃ G ∈ R, u ∈ G.map Step.name ∧ w ∈ G.map Step.name := by
  obtain ⟨out, hnt, hparse⟩ := resolve_ok_inv g order R hok
  have hcompl : CompleteG g :=
    newTarjan_ok_complete g order out hnd (fun x hx => hperm.mem_iff.mpr hx)
      (fun o ho => hperm.mem_iff.mp ho) hnt
  obtain ⟨R2, flat, hok2, hflatR, htopo, hpermf, hgen, hnodupf, hclosed⟩ :=
    resolveDag g order hacy hnd hcompl (fun o ho => hperm.mem_iff.mp ho)
      (fun x hx => hperm.mem_iff.mpr hx)
  have hR : R2 = R := by
    rw [hok] at hok2
    exact (Except.ok.inj hok2).symm
  subst hR
  induction hconn with
  | refl =>
    obtain ⟨G, hG, hxG⟩ := group_coverage g R2 flat hflatR hpermf u hu
    exact ⟨G, hG, hxG, hxG⟩
  | tail hub he ih =>
    rename_i b c
    obtain ⟨G, hG, huG, hbG⟩ := ih
    rcases he with hbc | hcb
    · exact ⟨G, hG, huG,
        edge_closed g hnd R2 flat hflatR hgen hclosed _ _ hbc G hG hbG⟩
    · have hc : c ∈ names g := by
        obtain ⟨s, hs, hsn, _⟩ := hcb
        exact (mem_names_iff g c).mpr ⟨s, hs, hsn⟩
      obtain ⟨G2, hG2, hcG2⟩ := group_coverage g R2 flat hflatR hpermf c hc
      have hbG2 := edge_closed g hnd R2 flat hflatR hgen hclosed _ _ hcb G2 hG2 hcG2
      have hGG : G = G2 := group_unique g R2 flat hflatR hnodupf b G G2 hG hG2 hbG hbG2
      exact ⟨G, hG, huG, hGG ▸ hcG2⟩


/-- Claim C2 witness: the two siblings `D` and `E`, connected only through
their common dependent `F`, share a group in the resolved pipeline. -/
theorem connected_steps_share_group_witness :
    ∃ G ∈ [[c2wD, c2wE, c2wF]], "D" ∈ G.map Step.name ∧ "E" ∈ G.map Step.name :=
  connected_steps_share_group c2wg ["D", "E", "F"] [[c2wD, c2wE, c2wF]] "D" "E"
    (acyclic_of_topoOk c2wg c2wg (fun s hs => hs) (by decide) (by decide))
    (by decide) (by decide) (by rfl) (by decide)
    (Relation.ReflTransGen.tail
      (Relation.ReflTransGen.tail Relation.ReflTransGen.refl
        (Or.inr (by decide : Edge c2wg "F" "D")))
      (Or.inl (by decide : Edge c2wg "F" "E")))

/-! ## Claim C7 (amended) — resolution covers the same steps in any order -/

/-- the steps of a resolved pipeline are a permutation of the mapping
(shared lemma). -/
theorem flat_perm_g (g flat : List Step) (hnd : (names g).Nodup)
    (hperm : (flat.map Step.name).Perm (names g))
    (hgen : ∀ s ∈ flat, s = findStep g s.name) : flat.Perm g := by
  have h1 : (flat.map Step.name).map (findStep g) = flat := by
    rw [List.map_map]
    calc flat.map (findStep g ∘ Step.name)
        = flat.map id := List.map_congr_left (fun s hs => (hgen s hs).symm)
      _ = flat := List.map_id flat
  have h2 : (names g).map (findStep g) = g := by
    show (g.map Step.name).map (findStep g) = g
    rw [List.map_map]
    calc g.map (findStep g ∘ Step.name)
        = g.map id := List.map_congr_left (fun s hs => findStep_eq_of_mem g hnd s hs)
      _ = g := List.map_id g
  have h3 : ((flat.map Step.name).map (findStep g)).Perm ((names g).map (findStep g)) :=
    hperm.map (findStep g)
  rw [h1, h2] at h3
  exact h3

/-- Claim C7 (amended): resolving the same unchanged mapping twice always
yields pipelines whose groups cover exactly the steps of the mapping (the
flattened pipelines are permutations of each other), and yields literally
identical pipelines whenever the two calls enumerate the map keys in the same
order; since Go randomizes map iteration between calls, the group order
itself is not stable (see the counterexample). -/
theorem resolution_covers_same_steps (g : List Step) (o1 o2 : List String)
    (hacy : Acyclic g) (hnd : (names g).Nodup) (hcompl : CompleteG g)
    (hp1 : o1.Perm (names g)) (hp2 : o2.Perm (names g)) :
    ∃ R1 R2, ResolvePipeline g o1 = .ok R1 ∧ ResolvePipeline g o2 = .ok R2 ∧
      ((R1.reverse).flatten).Perm g ∧ ((R2.reverse).flatten).Perm g ∧
      (o1 = o2 → R1 = R2) := by
  obtain ⟨R1, flat1, hok1, hflat1, _, hperm1, hgen1, hnodup1, _⟩ :=
    resolveDag g o1 hacy hnd hcompl (fun o ho => hp1.mem_iff.mp ho)
      (fun x hx => hp1.mem_iff.mpr hx)
  obtain ⟨R2, flat2, hok2, hflat2, _, hperm2, hgen2, hnodup2, _⟩ :=
    resolveDag g o2 hacy hnd hcompl (fun o ho => hp2.mem_iff.mp ho)
      (fun x hx => hp2.mem_iff.mpr hx)
  refine ⟨R1, R2, hok1, hok2, ?_, ?_, ?_⟩
  · rw [← hflat1]
    exact flat_perm_g g flat1 hnd hperm1 hgen1
  · rw [← hflat2]
    exact flat_perm_g g flat2 hnd hperm2 hgen2
  · intro he
    subst he
    rw [hok1] at hok2
    exact Except.ok.inj hok2

/-- Claim C7 witness: the amended theorem at the concrete two-step mapping
under its two possible iteration orders. -/
theorem resolution_covers_same_steps_witness :
    ∃ R1 R2, ResolvePipeline [c7G, c7H] ["G", "H"] = .ok R1 ∧
      ResolvePipeline [c7G, c7H] ["H", "G"] = .ok R2 ∧
      ((R1.reverse).flatten).Perm [c7G, c7H] ∧
      ((R2.reverse).flatten).Perm [c7G, c7H] ∧
      ((["G", "H"] : List String) = ["H", "G"] → R1 = R2) := by
  have hacy : Acyclic [c7G, c7H] :=
    acyclic_of_topoOk [c7G, c7H] [c7G, c7H] (fun s hs => hs) (by decide) (by decide)
  have hnd : (names [c7G, c7H]).Nodup := by decide
  have hcompl : CompleteG [c7G, c7H] := by decide
  have hp1 : (["G", "H"] : List String).Perm (names [c7G, c7H]) := by decide
  have hp2 : (["H", "G"] : List String).Perm (names [c7G, c7H]) := by decide
  exact resolution_covers_same_steps [c7G, c7H] ["G", "H"] ["H", "G"]
    hacy hnd hcompl hp1 hp2

/-! ## Claim C6 — container engine selector -/

/-- Claim C6 counterexample: with the wrapper installed and the caller being
the superuser, `getContainerExecutable` returns the direct engine binary
`docker`, not the privilege-transparent wrapper `wharfer` that the claim
demands for this input. -/
theorem wrapper_not_used_for_privileged_user :
    getContainerExecutable true true false = "docker" ∧
    getContainerExecutable true true false ≠ "wharfer" := by
  constructor
  · rfl
  · decide

/-- Claim C6 (amended): `getContainerExecutable` returns the wrapper
`wharfer` exactly when the wrapper is installed and the caller is neither the
superuser nor a member of the container-admin group, and returns the direct
engine binary `docker` exactly otherwise (in particular whenever the wrapper
is not installed). -/
theorem container_executable_selection :
    ∀ w r d : Bool,
      (getContainerExecutable w r d = "wharfer" ↔ w = true ∧ r = false ∧ d = false) ∧
      (getContainerExecutable w r d = "docker" ↔ w = false ∨ r = true ∨ d = true) := by
  decide

/-! ## Claim C8 — image existence check -/

/-- Claim C8: the image existence check fails with the `Image not found`
error naming the step's image exactly when the listing output contains zero
whitespace-delimited words, succeeds exactly when it contains at least one,
and propagates a listing error as-is. -/
theorem image_existence_check_spec :
    ∀ (img o e : String),
      (imageExistenceCheck img (.ok o) = .error (.notFound img) ↔ countWords o = 0) ∧
      (imageExistenceCheck img (.ok o) = .ok () ↔ 0 < countWords o) ∧
      imageExistenceCheck img (.error e) = .error (.listing e) := by
  intro img o e
  refine ⟨?_, ?_, rfl⟩ <;>
    · unfold imageExistenceCheck
      split <;> simp_all <;> omega

/-! ## Claim C9 — whitespace-only command panics -/


/-- Claim C9 is violated by the code: a command consisting of one space is
non-empty, `shlex.Split` of it yields zero tokens, and the argument assembly
of `NewContainerRunner` hits the out-of-range access `tokens[0]` (modelled as
the `none` result). -/
theorem whitespace_command_token_out_of_bounds :
    c9Step.command ≠ "" ∧ shlexSplit c9Step.command = [] ∧
    containerRunArgs id c9Step = none := by
  refine ⟨by decide, rfl, rfl⟩

/-! ## Claim C5 — container run argument assembly -/


/-- Claim C5 counterexample: for this foreground step with non-empty
`Command`, no argument list at all is assembled — the Go code panics on
`tokens[0]` (the `none` result) — so the claimed exact argument list is not
produced. -/
theorem run_args_whitespace_command_panics :
    c5Bad.detach = false ∧ c5Bad.command ≠ "" ∧ containerRunArgs id c5Bad = none := by
  refine ⟨rfl, by decide, rfl⟩

/-- Claim C5 (amended): for every step whose `Command` shell-lexes to at
least one token, the run operation assembles exactly `run --name
<container-name>`, then `--rm` (or `-d` when `Detach` is true), then `-p` per
port in order, then `-v` per volume with the host-side path made absolute and
the container side unchanged, then `-e` per environment entry, then
`--entrypoint` with the first token, then the image name, then the remaining
tokens replacing the declared `Args`; when `Command` is empty the declared
`Args` follow the image name and no `--entrypoint` is added. -/
theorem container_run_args_assembly (abs : String → String) (s : Step) :
    (∀ t ts, s.command ≠ "" → shlexSplit s.command = t :: ts →
      containerRunArgs abs s =
        some (["run", "--name", s.containerName]
          ++ (if s.detach then ["-d"] else ["--rm"])
          ++ s.ports.flatMap (fun port => ["-p", port])
          ++ s.volumes.flatMap (fun vol => ["-v", volumeArg abs vol])
          ++ s.environment.flatMap (fun envvar => ["-e", envvar])
          ++ ["--entrypoint", t] ++ [s.imageName] ++ ts)) ∧
    (s.command = "" →
      containerRunArgs abs s =
        some (["run", "--name", s.containerName]
          ++ (if s.detach then ["-d"] else ["--rm"])
          ++ s.ports.flatMap (fun port => ["-p", port])
          ++ s.volumes.flatMap (fun vol => ["-v", volumeArg abs vol])
          ++ s.environment.flatMap (fun envvar => ["-e", envvar])
          ++ [s.imageName] ++ s.args)) := by
  constructor
  · intro t ts hne hsplit
    unfold containerRunArgs
    rw [if_pos hne, hsplit]
  · intro hemp
    unfold containerRunArgs
    rw [if_neg (by simp [hemp])]


/-- Claim C5 witness: the amended assembly theorem evaluated on concrete
steps, covering both the command-override and the empty-command branch. -/
theorem container_run_args_assembly_witness :
    containerRunArgs (fun p => "/abs/" ++ p) c5Run =
      some ["run", "--name", "cn", "--rm", "-p", "80:80", "-v", "/abs/./data:/data",
            "-e", "K=V", "--entrypoint", "run.sh", "img", "--x"] ∧
    containerRunArgs (fun p => "/abs/" ++ p) c5Plain =
      some ["run", "--name", "cp", "-d", "imgp", "a1"] := by
  constructor
  · rw [(container_run_args_assembly (fun p => "/abs/" ++ p) c5Run).1 "run.sh" ["--x"]
      (by decide) (by rfl)]
    rfl
  · rw [(container_run_args_assembly (fun p => "/abs/" ++ p) c5Plain).2 (by rfl)]
    rfl

/-! ## Claim C10 — temporary directory idempotence -/

/-- Claim C10: `getOrCreateTempDir` is idempotent per name — a second call
with the same name returns the same path and leaves the state (in particular
the list of directories created on disk) unchanged — and a call with a
different name does not alter the entry recorded for the first name. -/
theorem getOrCreateTempDir_idempotent (fresh : Nat → String) (st : TempState)
    (pfx pfx2 : String) (hne : pfx2 ≠ pfx) :
    getOrCreateTempDir fresh (getOrCreateTempDir fresh st pfx).2 pfx =
      getOrCreateTempDir fresh st pfx ∧
    (getOrCreateTempDir fresh st pfx2).2.tempPaths.find? (fun p => p.1 = pfx) =
      st.tempPaths.find? (fun p => p.1 = pfx) := by
  constructor
  · unfold getOrCreateTempDir
    cases h : st.tempPaths.find? (fun p => p.1 = pfx) with
    | some q => simp [h]
    | none =>
      simp only [h, tempDir]
      rw [find?_append_none _ _ _ h]
      simp
  · unfold getOrCreateTempDir
    cases h : st.tempPaths.find? (fun p => p.1 = pfx2) with
    | some q => simp [h]
    | none =>
      simp only [h, tempDir]
      cases h2 : st.tempPaths.find? (fun p => p.1 = pfx) with
      | some q => exact find?_append_some _ _ _ _ h2
      | none =>
        rw [find?_append_none _ _ _ h2]
        simp [hne]

/-- Claim C10 witness: the idempotence theorem evaluated at a concrete state
and two distinct names. -/
theorem getOrCreateTempDir_idempotent_witness :
    getOrCreateTempDir (fun n => "d" ++ toString n)
        (getOrCreateTempDir (fun n => "d" ++ toString n) ⟨[], []⟩ "a").2 "a" =
      getOrCreateTempDir (fun n => "d" ++ toString n) ⟨[], []⟩ "a" ∧
    (getOrCreateTempDir (fun n => "d" ++ toString n) ⟨[], []⟩ "b").2.tempPaths.find?
        (fun p => p.1 = "a") =
      (⟨[], []⟩ : TempState).tempPaths.find? (fun p => p.1 = "a") :=
  getOrCreateTempDir_idempotent (fun n => "d" ++ toString n) ⟨[], []⟩ "a" "b" (by decide)

/-! ## Claim C3 — self-dependency is silently accepted -/


/-- Claim C3 fails on the code: a direct self-dependency forms a singleton
Tarjan component, so resolution does not fail — it returns a complete
pipeline containing the self-dependent step, contradicting the required
cyclic-dependency error naming the step. -/
theorem self_dependency_accepted :
    ResolvePipeline [c3Self] ["a"] = .ok [[c3Self]] := by rfl

/-! ## Claim C7 counterexample — group order depends on map iteration order -/


/-- Claim C7 counterexample: the same unchanged two-step mapping resolved
under the two possible map iteration orders (Go randomizes the order of
`range` over a map between calls) yields pipelines whose group order
differs. -/
theorem resolution_depends_on_visit_order :
    ResolvePipeline [c7G, c7H] ["G", "H"] = .ok [[c7H], [c7G]] ∧
    ResolvePipeline [c7G, c7H] ["H", "G"] = .ok [[c7G], [c7H]] ∧
    ResolvePipeline [c7G, c7H] ["G", "H"] ≠ ResolvePipeline [c7G, c7H] ["H", "G"] := by
  refine ⟨rfl, rfl, ?_⟩
  intro h
  rw [show ResolvePipeline [c7G, c7H] ["G", "H"] = .ok [[c7H], [c7G]] from rfl,
      show ResolvePipeline [c7G, c7H] ["H", "G"] = .ok [[c7G], [c7H]] from rfl] at h
  simp [c7G, c7H] at h

/-! ## Claim C2 counterexample — unrelated steps may share a group -/


theorem c2_weak_step_refuted : ∀ b : String,
    ¬ (Edge c2g "X" b ∨ Edge c2g b "X") := by
  intro b h
  rcases h with h | h <;>
  · obtain ⟨s, hs, hname, hdep⟩ := h
    simp only [c2g, c2A, c2B, c2X, List.mem_cons, List.not_mem_nil, or_false] at hs
    rcases hs with rfl | rfl | rfl <;> simp_all

/-- the step `X` is weakly connected to nothing but itself. -/
theorem c2_X_isolated : ∀ y, WeakConn c2g "X" y → y = "X" := by
  intro y h
  rcases (Relation.ReflTransGen.cases_head h) with rfl | ⟨b, hb, _⟩
  · rfl
  · exact absurd hb (c2_weak_step_refuted b)

/-- Claim C2 counterexample: under the visit order `A`, `X`, `B` (a possible
Go map iteration order) the fully unrelated step `X` lands in the same
Pipeline Group as `A` and `B`, although `X` shares no dependency
relationship — direct, transitive, or via any common ancestor or dependent —
with either. -/
theorem unrelated_steps_can_share_group :
    ResolvePipeline c2g ["A", "X", "B"] = .ok [[c2A, c2X, c2B]] ∧
    ¬ WeakConn c2g "X" "A" := by
  refine ⟨rfl, fun h => ?_⟩
  have := c2_X_isolated "A" h
  simp at this

end Gantry
